import Mathlib

set_option maxRecDepth 10000

/-!
Verification of the tunnel-manager MCP hardware server
(`enhanced_mcp_hardware_server.py`, `security_validator.py`).

Strings from the Python source are modelled as `List Char` (or Lean
`String`, unfolded to its character list); machine floats used as POSIX
timestamps are modelled as rationals; Python exceptions are modelled with
`Option`/`Except` (a `none`/`.error` result means the call raised).
-/

/-- Python `str.lower` restricted to ASCII, used to model the
`re.IGNORECASE` flag on the ASCII-only patterns of the source. -/

def charLower (c : Char) : Char :=
  if 'A' ≤ c ∧ c ≤ 'Z' then Char.ofNat (c.toNat + 32) else c

/-- Python regex `\s` on the ASCII range (space, tab, newline, carriage
return, vertical tab, form feed), as used by `str.split()` and the
whitespace pieces of the source patterns. -/
def pyIsSpace (c : Char) : Bool :=
  c = ' ' ∨ c = Char.ofNat 9 ∨ c = Char.ofNat 10 ∨ c = Char.ofNat 13 ∨
    c = Char.ofNat 11 ∨ c = Char.ofNat 12

/-- The character set of `security_validator.SecurityValidator.validate_hostname`,
line 84: letters, digits, dot and hyphen. -/
def allowedHostChar (c : Char) : Bool :=
  ('a' ≤ c ∧ c ≤ 'z') ∨ ('A' ≤ c ∧ c ≤ 'Z') ∨ ('0' ≤ c ∧ c ≤ '9') ∨
    c = '.' ∨ c = '-'

/-- Python `'..' in hostname`: two consecutive dots occur somewhere. -/
def hasConsecDots : List Char → Bool
  | [] => false
  | [_] => false
  | a :: b :: rest => (a == '.' && b == '.') || hasConsecDots (b :: rest)

/-- Python `hostname.split('.')` (on a separator, so an empty string gives
one empty label and a trailing dot gives a trailing empty label). -/
def splitOnDot : List Char → List (List Char)
  | [] => [[]]
  | c :: rest =>
    if c = '.' then [] :: splitOnDot rest
    else
      match splitOnDot rest with
      | [] => [[c]]
      | l :: ls => (c :: l) :: ls

/-- `SecurityValidator.validate_hostname` (security_validator.py lines
59-103).  The checks, in source order: empty, length over 253, leading or
trailing hyphen on the whole hostname, consecutive dots, characters outside
the allowed set.  The suspicious-pattern loop at lines 89-101 only logs a
warning and never changes the result, so it is not modelled. -/
def validate_hostname (hostname : List Char) : Bool × List Char :=
  if hostname = [] then (false, "Hostname must be a non-empty string".data)
  else if 253 < hostname.length then
    (false, "Hostname too long (max 253 characters)".data)
  else if hostname.head? = some '-' ∨ hostname.getLast? = some '-' then
    (false, "Hostname cannot start or end with hyphen".data)
  else if hasConsecDots hostname then
    (false, "Hostname cannot contain consecutive dots".data)
  else if ¬ hostname.all allowedHostChar then
    (false, "Hostname contains invalid characters".data)
  else (true, [])

/-- A hostname label as described by the specification: 1 to 63 characters,
each a letter, digit or hyphen, neither starting nor ending with a hyphen. -/
def goodLabel (l : List Char) : Bool :=
  l ≠ [] ∧ l.length ≤ 63 ∧ l.all (fun c => allowedHostChar c ∧ c ≠ '.') ∧
    l.head? ≠ some '-' ∧ l.getLast? ≠ some '-'

/-- The hostname whose label list is `L`: labels joined by single dots.
Used to state the specification's per-label description of hostnames. -/
def joinDots : List (List Char) → List Char
  | [] => []
  | [l] => l
  | l :: ls => l ++ '.' :: joinDots ls

/-- A terminal session (enhanced_mcp_hardware_server.py lines 137-164).
Timestamps are whole seconds; the SSH client and channel handles carry no
state relevant to the claims and are omitted. -/
structure TerminalSession where
  session_id : String
  created : Int
  last_activity : Int
  command_history : List String := []
  max_idle_time : Int := 3600
  deriving DecidableEq

/-- `TerminalSession.is_expired` (lines 155-157).  The source computes
`(datetime.now() - self.last_activity).seconds > self.max_idle_time`:
`timedelta.seconds` is the seconds component of the difference after whole
days are split off, which for an elapsed time of `e` seconds is
`e % 86400` (Python `%`, i.e. floor modulus, matching `Int.emod`). -/
def is_expired (s : TerminalSession) (now : Int) : Bool :=
  s.max_idle_time < (now - s.last_activity) % 86400

/-- `TerminalSession.add_command` (lines 159-164): append to the history,
keep only the last 100 entries when over 100, update `last_activity`. -/
def add_command (s : TerminalSession) (command : String) (now : Int) :
    TerminalSession :=
  let h := s.command_history ++ [command]
  let h' := if 100 < h.length then h.drop (h.length - 100) else h
  { s with command_history := h', last_activity := now }

/-- Python `l[-n:]`: the last `n` elements of a list (all of it when it is
shorter). -/
def keepLast (n : Nat) (l : List String) : List String :=
  l.drop (l.length - n)

/-- Result record of `TunnelManager.execute_in_session` (lines 779-823). -/
structure SessionCmdResult where
  success : Bool
  error : Option String := none
  output : Option String := none

/-- Python dict lookup `self.terminal_sessions[session_id]` over an
association list. -/
def lookupSession (sessions : List (String × TerminalSession))
    (sid : String) : Option TerminalSession :=
  (sessions.find? (fun p => p.1 == sid)).map (·.2)

/-- Python dict entry update for the session store. -/
def updateSession (sessions : List (String × TerminalSession))
    (sid : String) (s : TerminalSession) : List (String × TerminalSession) :=
  sessions.map (fun p => if p.1 == sid then (p.1, s) else p)

/-- `TunnelManager.execute_in_session` (lines 779-823).  Unknown session id:
structured failure.  Otherwise the command is sent on the channel and
`last_activity` is set to now; the channel read loop is abstracted by
`channel` (`some out` = the bytes received, `none` = the send or receive
raised, reaching the handler at lines 817-823).  The source never touches
`command_history` on this path. -/
def execute_in_session (sessions : List (String × TerminalSession))
    (session_id command : String) (now : Int) (channel : Option String) :
    List (String × TerminalSession) × SessionCmdResult :=
  match lookupSession sessions session_id with
  | none =>
    (sessions,
      { success := false,
        error := some ("Terminal session " ++ session_id ++ " not found") })
  | some s =>
    match channel with
    | none => (sessions, { success := false, error := some "channel error" })
    | some out =>
      (updateSession sessions session_id { s with last_activity := now },
        { success := true, output := some out, error := none })

/-- `TunnelManager._check_rate_limit` (lines 271-289), for one identifier.
`times` is the recorded request-timestamp list for that identifier (the
dict entry, `[]` when the identifier is new), `now` the current POSIX
time.  Old entries (`now - t` at least 60) are dropped; if at least
`maxRequestsPerMinute` remain the call is rejected, else `now` is appended
and the call accepted.  Returns the verdict and the updated list. -/
def check_rate_limit (times : List ℚ) (now : ℚ)
    (maxRequestsPerMinute : Nat) : Bool × List ℚ :=
  let kept := times.filter (fun t => now - t < 60)
  if maxRequestsPerMinute ≤ kept.length then (false, kept)
  else (true, kept ++ [now])

/-- A sequence of rate-limit checks for one identifier at the given call
times, threading the recorded-timestamp list; returns the verdicts in call
order and the final list. -/
def rateLimitRun (calls : List ℚ) (st : List ℚ)
    (maxRequestsPerMinute : Nat) : List Bool × List ℚ :=
  match calls with
  | [] => ([], st)
  | t :: ts =>
    let r := check_rate_limit st t maxRequestsPerMinute
    let rest := rateLimitRun ts r.2 maxRequestsPerMinute
    (r.1 :: rest.1, rest.2)

/-- A tunnel endpoint (enhanced_mcp_hardware_server.py lines 67-97), with
the fields the claims touch.  `response_time` is seconds as a rational
(`none` = Python `None`); `last_tested` is a timestamp in whole seconds. -/
structure TunnelEndpoint where
  hostname : String
  port : Nat := 22
  status : String := "unknown"
  last_tested : Option Int := none
  response_time : Option ℚ := none
  max_connections : Nat := 5
  current_connections : Int := 0
  deriving DecidableEq

/-- The sort key of `find_best_endpoint` (line 503):
`x.response_time or float('inf')`.  Python `or` takes the right operand
when the left is falsy, and both `None` and `0.0` are falsy, so a missing
or zero response time sorts as infinity. -/
def rtKey (e : TunnelEndpoint) : WithTop ℚ :=
  match e.response_time with
  | none => ⊤
  | some r => if r = 0 then ⊤ else (r : WithTop ℚ)

/-- The `active_endpoints` list of `find_best_endpoint` (lines 489-497):
endpoints paired positionally with their probe results, kept when the
result is `True` and the status is `active`, in registry order. -/
def activeOf (endpoints : List TunnelEndpoint) (results : List Bool) :
    List TunnelEndpoint :=
  ((endpoints.zip results).filter
    (fun p => p.2 && (p.1.status == "active"))).map (·.1)

/-- `TunnelManager.find_best_endpoint` (lines 487-504), with the probe
outcomes passed in (`results` is positional, as produced by
`asyncio.gather`).  The source sorts the active list ascending by the key
and returns its first element, `None` when the list is empty.  Python
`list.sort` is stable, so the sorted list (hence its head) is the one an
insertion sort under the same key produces. -/
def find_best_endpoint (endpoints : List TunnelEndpoint)
    (results : List Bool) : Option TunnelEndpoint :=
  let active := activeOf endpoints results
  if active = [] then none
  else (List.insertionSort (fun a b => rtKey a ≤ rtKey b) active).head?

/-- The first element of the list attaining the minimal sort key: the
specification reading of sort-then-take-first under a stable sort. -/
def firstMinBy : List TunnelEndpoint → Option TunnelEndpoint
  | [] => none
  | x :: xs =>
    match firstMinBy xs with
    | none => some x
    | some m => if rtKey x ≤ rtKey m then some x else some m

/-- How one probe of `TunnelManager.test_endpoint` (lines 401-485) can go.
Each constructor names the source path that produces it. -/
inductive ProbeOutcome
  /-- `_check_rate_limit` returned False (lines 403-405). -/
  | rateLimited
  /-- missing key file: `raise ConnectionError` (line 413), caught by the
  generic `except Exception` handler (lines 475-479). -/
  | keyMissing
  /-- password-protected or unreadable key: `raise SecurityError` (lines
  425-428), caught by the generic handler. -/
  | keyLoadFail
  /-- `paramiko.AuthenticationException` from `connect` (lines 463-466). -/
  | connectAuthFail
  /-- `paramiko.SSHException` (lines 467-470). -/
  | connectSSHFail
  /-- `socket.timeout` (lines 471-474). -/
  | connectTimeout
  /-- any other exception (lines 475-479). -/
  | otherException
  /-- command ran but the echo did not start with `connection_test_`
  (lines 458-461). -/
  | badResponse
  /-- probe succeeded in `elapsed` seconds (lines 452-457). -/
  | ok (elapsed : ℚ)
  deriving DecidableEq

/-- `TunnelManager.test_endpoint` (lines 401-485): the endpoint after the
probe and the returned boolean.  The handlers for
`AuthenticationException`, `SSHException` and `socket.timeout`, and the
unexpected-response branch, set `status` only; the generic
`except Exception` handler also records `last_tested`; success sets
`status`, `response_time` and `last_tested`.  Every path returns instead
of raising. -/
def test_endpoint (e : TunnelEndpoint) (outcome : ProbeOutcome) (now : Int) :
    TunnelEndpoint × Bool :=
  match outcome with
  | .rateLimited => (e, false)
  | .keyMissing => ({ e with status := "failed", last_tested := some now }, false)
  | .keyLoadFail => ({ e with status := "failed", last_tested := some now }, false)
  | .connectAuthFail => ({ e with status := "failed" }, false)
  | .connectSSHFail => ({ e with status := "failed" }, false)
  | .connectTimeout => ({ e with status := "failed" }, false)
  | .otherException => ({ e with status := "failed", last_tested := some now }, false)
  | .badResponse => ({ e with status := "failed" }, false)
  | .ok elapsed =>
    ({ e with status := "active", response_time := some elapsed, last_tested := some now }, true)

/-- Outcomes the claim calls a probe failure: authentication failure,
protocol/SSH error, timeout, or any other exception (and the
unexpected-response branch); not the rate-limited early return, which
probes nothing. -/
def isFailureOutcome : ProbeOutcome → Bool
  | .rateLimited => false
  | .ok _ => false
  | _ => true

/-- Outcomes on which the source records `last_tested`: the generic
`except Exception` paths and success. -/
def recordsLastTested : ProbeOutcome → Bool
  | .keyMissing => true
  | .keyLoadFail => true
  | .otherException => true
  | .ok _ => true
  | _ => false

/-- One sweep of `TunnelManager._periodic_health_check` (lines 260-269):
`for endpoint in self.endpoints: await self.test_endpoint(endpoint)` —
each endpoint is probed with its own outcome; since `test_endpoint`
returns `False` rather than raising on failure, the loop always reaches
every endpoint. -/
def health_check_sweep (endpoints : List TunnelEndpoint)
    (outcomes : List ProbeOutcome) (now : Int) : List TunnelEndpoint :=
  (endpoints.zip outcomes).map (fun p => (test_endpoint p.1 p.2 now).1)

/-- Regular expressions in the fragment the source uses: literal
characters and one-character classes, sequencing, alternation, and greedy
`*`/`+` over one-character classes (every `*`/`+` in the source patterns
is over a single character class, e.g. `\s*`, `[^)]+`, `.*`). -/
inductive RE
  | eps
  | cls (f : Char → Bool)
  | seq (a b : RE)
  | alt (a b : RE)
  | starC (f : Char → Bool)
  | plusC (f : Char → Bool)

/-- Remainders of a greedy `f*` at the head of `s`, longest match first —
Python's backtracking order. -/
def starRems (f : Char → Bool) (s : List Char) : List (List Char) :=
  let run := (s.takeWhile f).length
  (List.range (run + 1)).map (fun k => s.drop (run - k))

/-- Remainders of a greedy `f+` at the head of `s`, longest first. -/
def plusRems (f : Char → Bool) (s : List Char) : List (List Char) :=
  let run := (s.takeWhile f).length
  (List.range run).map (fun k => s.drop (run - k))

/-- All ways a regex can match a prefix of `s`, as the list of remainders
in Python backtracking priority order (first = the match Python picks). -/
def reMatches : RE → List Char → List (List Char)
  | .eps, s => [s]
  | .cls _, [] => []
  | .cls f, c :: r => if f c then [r] else []
  | .seq a b, s => (reMatches a s).flatMap (reMatches b)
  | .alt a b, s => reMatches a s ++ reMatches b s
  | .starC f, s => starRems f s
  | .plusC f, s => plusRems f s

/-- Length of the match Python's engine takes at the head of `s` (its
highest-priority parse), if any. -/
def firstMatchLen (re : RE) (s : List Char) : Option Nat :=
  match reMatches re s with
  | [] => none
  | r :: _ => some (s.length - r.length)

/-- Python `re.search(p, s)`: a match starting at some position. -/
def reSearch (re : RE) : List Char → Bool
  | [] => !(reMatches re []).isEmpty
  | c :: r => !(reMatches re (c :: r)).isEmpty || reSearch re r

/-- Python `re.findall(p, s)` for the patterns at hand (none of which can
match the empty string): the matched texts, scanning left to right without
overlap.  Structural recursion on a fuel that starts at the text length;
every step consumes at least one character, so the fuel never runs out. -/
def reFindallF (re : RE) : Nat → List Char → List (List Char)
  | 0, _ => []
  | _, [] => []
  | fuel + 1, c :: r =>
    match firstMatchLen re (c :: r) with
    | none => reFindallF re fuel r
    | some n =>
      if n = 0 then reFindallF re fuel r
      else (c :: r).take n :: reFindallF re fuel ((c :: r).drop n)

/-- `re.findall` at full fuel. -/
def reFindall (re : RE) (s : List Char) : List (List Char) :=
  reFindallF re s.length s

/-- Case-insensitive literal (ASCII lowering, modelling `re.IGNORECASE`). -/
def rlitCI (w : List Char) : RE :=
  w.foldr (fun c acc => RE.seq (.cls (fun d => charLower d == charLower c)) acc)
    .eps

/-- Case-sensitive literal. -/
def rlit (w : List Char) : RE :=
  w.foldr (fun c acc => RE.seq (.cls (fun d => d == c)) acc) .eps

/-- Python regex `.` (any character but a newline). -/
def reDot : RE := .starC (fun c => c != Char.ofNat 10)

/-- `SecurityValidator.DANGEROUS_PATTERNS` (security_validator.py lines
22-42), each transliterated next to its source text and searched with
`re.IGNORECASE` (line 124). -/
def dangerousPatterns : List (RE × String) :=
  [(.seq (rlitCI "rm".data) (.seq (.plusC pyIsSpace) (.seq (rlitCI "-rf".data) (.seq (.plusC pyIsSpace) (rlitCI "/".data)))), "rm\\s+-rf\\s+/"),
   (.seq (rlitCI "dd".data) (.seq (.plusC pyIsSpace) (.seq (rlitCI "if=".data) (.seq reDot (.seq (rlitCI "of=".data) reDot)))), "dd\\s+if=.*of=.*"),
   (rlitCI "mkfs.".data, "mkfs\\."),
   (.seq (rlitCI "fdisk".data) (.plusC pyIsSpace), "fdisk\\s+"),
   (.seq (rlitCI "parted".data) (.plusC pyIsSpace), "parted\\s+"),
   (.seq (rlitCI "format".data) (.plusC pyIsSpace), "format\\s+"),
   (.seq (rlitCI "del".data) (.seq (.plusC pyIsSpace) (.seq (rlitCI "/".data) (.seq (.cls (fun c => charLower c == 's' || charLower c == 'q')) (.plusC pyIsSpace)))), "del\\s+/[sq]\\s+"),
   (.seq (rlitCI "rmdir".data) (.seq (.plusC pyIsSpace) (.seq (rlitCI "/".data) (.seq (.cls (fun c => charLower c == 's' || charLower c == 'q')) (.plusC pyIsSpace)))), "rmdir\\s+/[sq]\\s+"),
   (.seq (rlit ">".data) (.seq (.starC pyIsSpace) (.seq (rlitCI "/dev/sd".data) (.cls (fun c => 'a' ≤ charLower c ∧ charLower c ≤ 'z')))), ">\\s*/dev/sd[a-z]"),
   (.seq (rlitCI "curl".data) (.seq (.plusC pyIsSpace) (.seq reDot (.seq (rlit "|".data) (.seq (.starC pyIsSpace) (rlitCI "bash".data))))), "curl\\s+.*\\|\\s*bash"),
   (.seq (rlitCI "wget".data) (.seq (.plusC pyIsSpace) (.seq reDot (.seq (rlit "|".data) (.seq (.starC pyIsSpace) (rlitCI "bash".data))))), "wget\\s+.*\\|\\s*bash"),
   (.seq (rlitCI "eval".data) (.seq (.plusC pyIsSpace) (rlit "$(".data)), "eval\\s+\\$\\("),
   (.seq (.cls (fun c => c == Char.ofNat 96)) (.seq (.starC (fun c => c != Char.ofNat 96)) (.cls (fun c => c == Char.ofNat 96))), "`[^`]*`"),
   (.seq (rlit "$(".data) (.seq (.starC (fun c => c != ')')) (rlit ")".data)), "\\$\\([^)]*\\)"),
   (.seq (rlit ";".data) (.seq (.starC pyIsSpace) (.seq (rlitCI "rm".data) (.plusC pyIsSpace))), ";\\s*rm\\s+"),
   (.seq (rlit "&&".data) (.seq (.starC pyIsSpace) (.seq (rlitCI "rm".data) (.plusC pyIsSpace))), "&&\\s*rm\\s+"),
   (.seq (rlit "|".data) (.seq (.starC pyIsSpace) (.seq (rlitCI "rm".data) (.plusC pyIsSpace))), "\\|\\s*rm\\s+"),
   (.seq (rlitCI "nc".data) (.seq (.plusC pyIsSpace) (.seq reDot (.seq (.plusC pyIsSpace) (.seq (.plusC (fun c => '0' ≤ c ∧ c ≤ '9')) (.seq reDot (rlit "<".data)))))), "nc\\s+.*\\s+\\d+.*<"),
   (.seq (rlitCI "netcat".data) (.seq (.plusC pyIsSpace) (.seq reDot (.seq (.plusC pyIsSpace) (.seq (.plusC (fun c => '0' ≤ c ∧ c ≤ '9')) (.seq reDot (rlit "<".data)))))), "netcat\\s+.*\\s+\\d+.*<")]

/-- The injection patterns of `validate_command` (lines 129-137), searched
case-sensitively with `re.findall` (line 140). -/
def injectionPatterns : List RE :=
  [.seq (rlit ";".data) (.seq (.starC pyIsSpace) (.plusC (fun c => c != ';'))),
   .seq (rlit "&&".data) (.seq (.starC pyIsSpace) (.plusC (fun c => c != '&'))),
   .seq (rlit "|".data) (.seq (.starC pyIsSpace) (.plusC (fun c => c != '|'))),
   .seq (.cls (fun c => c == Char.ofNat 96)) (.seq (.plusC (fun c => c != Char.ofNat 96)) (.cls (fun c => c == Char.ofNat 96))),
   .seq (rlit "$(".data) (.seq (.plusC (fun c => c != ')')) (rlit ")".data)),
   .seq (rlit ">".data) (.seq (.starC pyIsSpace) (rlit "/dev/".data)),
   .seq (rlit "<".data) (.seq (.starC pyIsSpace) (rlit "/dev/".data))]

/-- `SecurityValidator.ALLOWED_COMMANDS` (lines 45-53). -/
def ALLOWED_COMMANDS : List String :=
  ["ls", "cat", "grep", "find", "ps", "top", "htop", "df", "du", "free",
   "uname", "whoami", "id", "pwd", "cd", "mkdir", "touch", "cp", "mv",
   "chmod", "chown", "ln", "tar", "gzip", "gunzip", "zip", "unzip",
   "apt", "yum", "dnf", "pacman", "pip", "npm", "yarn", "docker",
   "git", "vim", "nano", "emacs", "python", "python3", "node", "java",
   "gcc", "make", "cmake", "systemctl", "service", "journalctl",
   "nvidia-smi", "lspci", "lsusb", "lscpu", "lsmem", "iostat", "vmstat"]

/-- Python `str.strip()` over the ASCII whitespace the commands use. -/
def pyStrip (s : List Char) : List Char :=
  ((s.dropWhile pyIsSpace).reverse.dropWhile pyIsSpace).reverse

/-- Python `str.split()` with no separator: whitespace-run split, empty
words dropped.  Fueled like `reFindallF`. -/
def pyWordsF : Nat → List Char → List (List Char)
  | 0, _ => []
  | _, [] => []
  | fuel + 1, c :: r =>
    if pyIsSpace c then pyWordsF fuel r
    else ((c :: r).takeWhile (fun d => ¬ pyIsSpace d)) ::
      pyWordsF fuel ((c :: r).dropWhile (fun d => ¬ pyIsSpace d))

/-- `str.split()` at full fuel. -/
def pyWords (s : List Char) : List (List Char) :=
  pyWordsF s.length s

/-- The separator-stripping class of line 143:
`re.sub(r'^[;&|`$()>\s]+', '', match)` deletes the leading run of these
characters. -/
def chainSepChar (c : Char) : Bool :=
  c = ';' ∨ c = '&' ∨ c = '|' ∨ c = Char.ofNat 96 ∨ c = '$' ∨ c = '(' ∨
    c = ')' ∨ c = '>' ∨ pyIsSpace c

/-- The inner loop of lines 141-145 over the matches of one injection
pattern.  `none` = the Python code raises (IndexError on `[0]` when the
match strips to nothing); `some (some m)` = blocked with offending match
`m`; `some none` = all matches pass. -/
def checkChainMatches : List (List Char) → Option (Option (List Char))
  | [] => some none
  | m :: rest =>
    match (pyWords (m.dropWhile chainSepChar)).head? with
    | none => none
    | some chained =>
      if (ALLOWED_COMMANDS.map String.data).contains chained then
        checkChainMatches rest
      else some (some m)

/-- The loop of lines 139-145 over the injection patterns. -/
def checkInjectionLoop (ps : List RE) (cmd : List Char) :
    Option (Option (List Char)) :=
  match ps with
  | [] => some none
  | p :: rest =>
    match checkChainMatches (reFindall p cmd) with
    | none => none
    | some (some m) => some (some m)
    | some none => checkInjectionLoop rest cmd

/-- `SecurityValidator.validate_command` (security_validator.py lines
105-161).  Result `none` models the call raising; `some (is_safe, msg)`
the returned pair.  The allowed-list membership check at lines 156-159
only logs and never blocks. -/
def validate_command (command : String) (allow_sudo : Bool) :
    Option (Bool × String) :=
  if command.data = [] then some (false, "Command must be a non-empty string")
  else
    let cmd := pyStrip command.data
    match dangerousPatterns.find? (fun p => reSearch p.1 cmd) with
    | some p => some (false, "Command contains dangerous pattern: " ++ p.2)
    | none =>
      match checkInjectionLoop injectionPatterns cmd with
      | none => none
      | some (some m) =>
        some (false, "Potentially dangerous command chaining: " ++ String.mk m)
      | some none =>
        match (pyWords cmd).head? with
        | none => none
        | some main0 =>
          if String.mk (main0.map charLower) = "sudo" then
            if allow_sudo = false then
              some (false, "Sudo commands not allowed in this context")
            else if (pyWords cmd).length < 2 then
              some (false, "Incomplete sudo command")
            else some (true, "")
          else some (true, "")

/-- Case-insensitive prefix test (ASCII lowering): does the keyword `kw`
start the text `s`, ignoring case? -/
def ciPrefix : List Char → List Char → Bool
  | [], _ => true
  | _ :: _, [] => false
  | k :: ks, c :: cs => (charLower c == charLower k) && ciPrefix ks cs

/-- Length of the match of one redaction pattern
`KEYWORD[=:]\s*\S+` at the head of `s`, if it matches there.  `kws` lists
the keyword spellings the pattern accepts (for `api[_-]?key` the three
spellings `apikey`, `api_key`, `api-key`; they differ at a fixed position,
so at most one can match).  Greedy `\s*` then `\S+` is: maximal run of
whitespace, then a maximal nonempty run of non-whitespace — exactly the
single parse the Python engine takes. -/
def credMatch (kws : List (List Char)) (s : List Char) : Option Nat :=
  match kws.find? (fun kw => ciPrefix kw s) with
  | none => none
  | some kw =>
    match s.drop kw.length with
    | [] => none
    | c :: r2 =>
      if c = '=' ∨ c = ':' then
        let sp := (r2.takeWhile pyIsSpace).length
        let val := ((r2.drop sp).takeWhile (fun d => ¬ pyIsSpace d)).length
        if val = 0 then none else some (kw.length + 1 + sp + val)
      else none

/-- Python `re.sub(pattern, repl, s)` for one redaction pattern: scan left
to right, replace each (nonempty) match by `repl`, resume after it.
Fueled structural recursion; a match always consumes at least one
character (`credMatch_pos`), so fuel equal to the text length never runs
out. -/
def subAllF (kws : List (List Char)) (repl : List Char) :
    Nat → List Char → List Char
  | 0, s => s
  | _, [] => []
  | fuel + 1, c :: rest =>
    match credMatch kws (c :: rest) with
    | some n => repl ++ subAllF kws repl fuel ((c :: rest).drop n)
    | none => c :: subAllF kws repl fuel rest

/-- `re.sub` at full fuel. -/
def subAll (kws : List (List Char)) (repl : List Char) (s : List Char) :
    List Char :=
  subAllF kws repl s.length s

/-- The `patterns_to_redact` of
`SecurityValidator.sanitize_command_output` (security_validator.py lines
273-280), in source order: the accepted keyword spellings of each pattern
(`api[_-]?key` and `auth[_-]?token` each accept three) with its fixed
replacement. -/
def credPatterns : List (List (List Char) × List Char) :=
  [(["password".data], "password=***".data),
   (["token".data], "token=***".data),
   (["key".data], "key=***".data),
   (["secret".data], "secret=***".data),
   (["apikey".data, "api_key".data, "api-key".data], "api_key=***".data),
   (["authtoken".data, "auth_token".data, "auth-token".data],
     "auth_token=***".data)]

/-- `SecurityValidator.sanitize_command_output` (lines 259-286): the six
`re.sub` passes applied in order.  (The `if not output` early return
returns the empty string unchanged, which the passes do anyway.) -/
def sanitize_command_output (output : List Char) : List Char :=
  credPatterns.foldl (fun s p => subAll p.1 p.2 s) output

/-- Security events logged through
`security_validator.log_security_event` on the `execute_command` paths. -/
inductive SecEvent
  | blocked_command (details : String)
  | security_bypass (details : String)
  deriving DecidableEq

/-- The result dict of `TunnelManager.execute_command` (timestamp field
omitted; absent keys are `none`). -/
structure CmdResult where
  success : Bool
  error : Option String := none
  exit_code : Option Int := none
  stdout : Option String := none
  stderr : Option String := none
  command : String
  endpointHost : String
  deriving DecidableEq

/-- How the execution phase of `execute_command` (the `try` block, lines
596-663) can go once a connection is requested. -/
inductive ExecOutcome
  /-- command ran; raw stdout, stderr and exit code. -/
  | ok (stdoutData stderrData : String) (exitCode : Int)
  /-- `socket.timeout` while reading (lines 608-615). -/
  | cmdTimeout
  /-- `paramiko.AuthenticationException` (lines 634-642). -/
  | authFail (msg : String)
  /-- `paramiko.SSHException` (lines 643-651). -/
  | sshFail (msg : String)
  /-- any other exception, including `_get_ssh_connection` raising
  `ConnectionError` or `SecurityError` (lines 652-660). -/
  | otherFail (msg : String)
  deriving DecidableEq

/-- `TunnelManager.execute_command` (lines 558-663).  `rateOk` is the
verdict of `_check_rate_limit` (modelled by `check_rate_limit`);
`validation` is what `security_validator.validate_command` returns
(`none` = it raised, modelled by `validate_command`; `allow_sudo` is
folded into it); `outc` abstracts the network.  The result is the dict,
the security events logged, and whether `_get_ssh_connection` was invoked
(line 598) — the claims call this pool acquisition.  A `.error` result
means an exception escapes `execute_command` (the validator call at line
574 sits outside the `try`). -/
def execute_command (e : TunnelEndpoint) (command : String)
    (bypass_security rateOk : Bool) (validation : Option (Bool × String))
    (outc : ExecOutcome) : Except Unit (CmdResult × List SecEvent × Bool) :=
  if rateOk = false then
    .ok ({ success := false, error := some "Rate limit exceeded",
           command := command, endpointHost := e.hostname }, [], false)
  else
    let run : List SecEvent → Except Unit (CmdResult × List SecEvent × Bool) :=
      fun events =>
        match outc with
        | .ok out err code =>
          .ok ({ success := code == 0, exit_code := some code,
                 stdout := some (String.mk (sanitize_command_output out.data)),
                 stderr := some (String.mk (sanitize_command_output err.data)),
                 command := command, endpointHost := e.hostname },
            events, true)
        | .cmdTimeout =>
          .ok ({ success := false, error := some "Command execution timeout",
                 command := command, endpointHost := e.hostname }, events, true)
        | .authFail msg =>
          .ok ({ success := false,
                 error := some ("Authentication failed: " ++ msg),
                 command := command, endpointHost := e.hostname }, events, true)
        | .sshFail msg =>
          .ok ({ success := false, error := some ("SSH error: " ++ msg),
                 command := command, endpointHost := e.hostname }, events, true)
        | .otherFail msg =>
          .ok ({ success := false, error := some msg,
                 command := command, endpointHost := e.hostname }, events, true)
    if bypass_security = false then
      match validation with
      | none => .error ()
      | some (false, error_msg) =>
        .ok ({ success := false,
               error := some ("Security validation failed: " ++ error_msg),
               command := command, endpointHost := e.hostname },
          [SecEvent.blocked_command ("Blocked dangerous command on " ++
            e.hostname ++ ": " ++ command)], false)
      | some (true, _) => run []
    else
      run [SecEvent.security_bypass ("AI agent bypassed security for command on "
        ++ e.hostname ++ ": " ++ (command.take 50) ++ "...")]

/-- Pool-related state for one endpoint and its `hostname:port` key:
`current` is `endpoint.current_connections` (an `Int`, since the source
clamps with `max(0, current - 1)`), `pool` the number of idle connections
in `self._connection_pool[key]`, and `outstanding` the number of clients
handed out by `_get_ssh_connection` and not yet returned — the source
pairs every `_return_ssh_connection` with a successful acquisition
(`execute_command`'s `finally` runs only when `ssh_client` was obtained). -/
structure PoolState where
  current : Int
  pool : Nat
  outstanding : Nat
  deriving DecidableEq

/-- The ways one `_get_ssh_connection` / `_return_ssh_connection` call can
go (enhanced_mcp_hardware_server.py lines 665-736), named by source path. -/
inductive PoolEvent
  /-- pooled connection popped (line 671), liveness check passes,
  `current_connections += 1` (line 675). -/
  | acquirePooledAlive
  /-- pooled connection popped but dead; `current < max_connections`, a
  new connection is made, `current += 1` (lines 677-711). -/
  | acquirePooledDeadNew
  /-- pooled connection popped but dead; `current >= max_connections`:
  `ConnectionError` raised (line 683), the caller gets no client. -/
  | acquirePooledDeadFull
  /-- pooled connection popped but dead; `connect` raises (lines 689-708),
  no client handed out. -/
  | acquirePooledDeadConnectFail
  /-- pool empty, `current < max_connections`, new connection made. -/
  | acquireNew
  /-- pool empty, `current >= max_connections`: `ConnectionError`. -/
  | acquireNewFull
  /-- pool empty, `current < max_connections`, `connect` raises. -/
  | acquireNewConnectFail
  /-- return: liveness check passes and the pool has room
  (`len < _max_pool_size`, line 725): pushed back; finally clause
  `current = max(0, current - 1)` (line 736). -/
  | releaseAlivePool
  /-- return: alive but the pool is full: closed; counter clamped down. -/
  | releaseAliveFull
  /-- return: connection dead: closed; counter clamped down. -/
  | releaseDead
  deriving DecidableEq

/-- One transition, `none` when the event's source-path guard cannot fire
in `st` (releases additionally require an outstanding client to return,
which is how the source ever reaches `_return_ssh_connection`). -/
def poolStep (maxConn maxPool : Nat) (st : PoolState) (ev : PoolEvent) :
    Option PoolState :=
  match ev with
  | .acquirePooledAlive =>
    if 1 ≤ st.pool then
      some { current := st.current + 1, pool := st.pool - 1,
             outstanding := st.outstanding + 1 }
    else none
  | .acquirePooledDeadNew =>
    if 1 ≤ st.pool ∧ st.current < maxConn then
      some { current := st.current + 1, pool := st.pool - 1,
             outstanding := st.outstanding + 1 }
    else none
  | .acquirePooledDeadFull =>
    if 1 ≤ st.pool ∧ (maxConn : Int) ≤ st.current then
      some { st with pool := st.pool - 1 }
    else none
  | .acquirePooledDeadConnectFail =>
    if 1 ≤ st.pool ∧ st.current < maxConn then
      some { st with pool := st.pool - 1 }
    else none
  | .acquireNew =>
    if st.pool = 0 ∧ st.current < maxConn then
      some { st with current := st.current + 1, outstanding := st.outstanding + 1 }
    else none
  | .acquireNewFull =>
    if st.pool = 0 ∧ (maxConn : Int) ≤ st.current then some st else none
  | .acquireNewConnectFail =>
    if st.pool = 0 ∧ st.current < maxConn then some st else none
  | .releaseAlivePool =>
    if 1 ≤ st.outstanding ∧ st.pool < maxPool then
      some { current := max 0 (st.current - 1), pool := st.pool + 1,
             outstanding := st.outstanding - 1 }
    else none
  | .releaseAliveFull =>
    if 1 ≤ st.outstanding ∧ maxPool ≤ st.pool then
      some { st with current := max 0 (st.current - 1), outstanding := st.outstanding - 1 }
    else none
  | .releaseDead =>
    if 1 ≤ st.outstanding then
      some { st with current := max 0 (st.current - 1), outstanding := st.outstanding - 1 }
    else none

/-- A fresh `TunnelManager` / endpoint: counter 0, empty pool. -/
def poolInit : PoolState := { current := 0, pool := 0, outstanding := 0 }

/-- Run a sequence of pool events. -/
def poolRun (maxConn maxPool : Nat) (st : PoolState) :
    List PoolEvent → Option PoolState
  | [] => some st
  | ev :: evs =>
    match poolStep maxConn maxPool st ev with
    | none => none
    | some st' => poolRun maxConn maxPool st' evs

/-- The C2 invariant: counter within bounds, idle pool within bounds, and
(the glue) the counter equals the outstanding clients and counter plus
idle pool never exceed `max_connections`. -/
def poolInv (maxConn maxPool : Nat) (st : PoolState) : Prop :=
  0 ≤ st.current ∧ st.current ≤ (maxConn : Int) ∧ st.pool ≤ maxPool ∧
    st.current = (st.outstanding : Int) ∧
    st.current + (st.pool : Int) ≤ (maxConn : Int)

/-- A text is benign when it is empty or starts with whitespace: nothing a
redaction keyword could start on. -/
def benignB (t : List Char) : Bool :=
  match t with
  | [] => true
  | c :: _ => pyIsSpace c

/-- Well-formedness of a redaction pattern: every keyword spelling is
nonempty, made of non-whitespace characters fixed by ASCII lowering; the
replacement is nonempty, whitespace-free, ends in `*` and does not start
with a separator; and at most one spelling can match at a position. -/
structure PatOK (kws : List (List Char)) (repl : List Char) : Prop where
  kws_ne : ∀ kw ∈ kws, kw ≠ []
  kws_chars : ∀ kw ∈ kws, ∀ c ∈ kw, pyIsSpace c = false ∧ charLower c = c
  repl_solid : ∀ c ∈ repl, pyIsSpace c = false
  repl_ne : repl ≠ []
  repl_last : repl.getLast? = some '*'
  repl_head_sep : ∀ h, repl.head? = some h → ¬(h = '=' ∨ h = ':')
  unique : ∀ (s kw1 kw2 : List Char), kw1 ∈ kws → kw2 ∈ kws →
    ciPrefix kw1 s = true → ciPrefix kw2 s = true → kw1 = kw2

/-- Canonicity of a text for one redaction pattern: wherever the pattern
matches, the matched text is exactly the replacement.  Such a text is a
fixed point of the corresponding `re.sub` pass. -/
def Canon (kws : List (List Char)) (repl : List Char) (t : List Char) : Prop :=
  ∀ j n, credMatch kws (t.drop j) = some n → (t.drop j).take n = repl

/-- Relations between a checked pattern `K` and a rewriting pattern `J`
that make a `J`-pass preserve (or establish) `K`-canonicity.  All three
are finite checks on the concrete patterns. -/
structure PairOK (kwsK : List (List Char)) (replK : List Char)
    (kwsJ : List (List Char)) (replJ : List Char) : Prop where
  pair_canon : ∀ o < replJ.length,
    (∃ kw ∈ kwsK, ciPrefix kw (replJ.drop o) = true) → replJ.drop o = replK
  no_inner : ∀ o, 1 ≤ o → o < replK.length → ∀ kw ∈ kwsJ,
    ciPrefix kw (replK.drop o) = false
  no_suffix : ∀ kw ∈ kwsK, ∀ o, 1 ≤ o → o < kw.length →
    ciPrefix (kw.drop o) replJ = false

def pwKws : List (List Char) := ["password".data]

def pwRepl : List Char := "password=***".data

def tokKws : List (List Char) := ["token".data]

def tokRepl : List Char := "token=***".data

def keyKws : List (List Char) := ["key".data]

def keyRepl : List Char := "key=***".data

def secKws : List (List Char) := ["secret".data]

def secRepl : List Char := "secret=***".data

def apiKws : List (List Char) := ["apikey".data, "api_key".data, "api-key".data]

def apiRepl : List Char := "api_key=***".data

def authKws : List (List Char) :=
  ["authtoken".data, "auth_token".data, "auth-token".data]

def authRepl : List Char := "auth_token=***".data

theorem getLast?_cons_ne {a : Char} {t : List Char} (h : t ≠ []) :
    (a :: t).getLast? = t.getLast? := by
  cases t with
  | nil => exact absurd rfl h
  | cons b t' => simp [List.getLast?]

theorem goodLabel_spec {l : List Char} (h : goodLabel l = true) :
    l ≠ [] ∧ l.length ≤ 63 ∧
      (∀ c ∈ l, allowedHostChar c = true ∧ c ≠ '.') ∧
      l.head? ≠ some '-' ∧ l.getLast? ≠ some '-' := by
  simp only [goodLabel, Bool.and_eq_true, decide_eq_true_eq, List.all_eq_true] at h
  exact ⟨h.1, h.2.1, fun c hc => h.2.2.1 c hc, h.2.2.2.1, h.2.2.2.2⟩

theorem hasConsecDots_of_dotfree {l : List Char}
    (h : ∀ c ∈ l, c ≠ '.') : hasConsecDots l = false := by
  induction l with
  | nil => rfl
  | cons a t ih =>
    cases t with
    | nil => rfl
    | cons b t' =>
      have ha : (a == '.') = false := by
        simp [h a (by simp)]
      have ht : ∀ c ∈ b :: t', c ≠ '.' := fun c hc => h c (by simp [hc])
      simp only [hasConsecDots, ha, Bool.false_and, Bool.false_or]
      exact ih ht

theorem hasConsecDots_append_dot {l t : List Char}
    (hl : ∀ c ∈ l, c ≠ '.') (ht : hasConsecDots t = false)
    (hh : t.head? ≠ some '.') :
    hasConsecDots (l ++ '.' :: t) = false := by
  induction l with
  | nil =>
    cases t with
    | nil => rfl
    | cons b t' =>
      have hb : (b == '.') = false := by
        have : b ≠ '.' := by
          intro hb
          exact hh (by simp [List.head?, hb])
        simp [this]
      simp only [List.nil_append, hasConsecDots, hb, Bool.and_false,
        Bool.false_or]
      exact ht
  | cons a l' ih =>
    have ha : (a == '.') = false := by
      simp [hl a (by simp)]
    have hl' : ∀ c ∈ l', c ≠ '.' := fun c hc => hl c (by simp [hc])
    have ih' := ih hl'
    cases l' with
    | nil =>
      simp only [List.cons_append, List.nil_append, hasConsecDots, ha,
        Bool.false_and, Bool.false_or] at ih' ⊢
      exact ih'
    | cons b l'' =>
      simp only [List.cons_append, hasConsecDots, ha, Bool.false_and,
        Bool.false_or] at ih' ⊢
      exact ih'

theorem joinDots_ne_nil {L : List (List Char)} (hne : L ≠ [])
    (hg : L.all goodLabel = true) : joinDots L ≠ [] := by
  cases L with
  | nil => exact absurd rfl hne
  | cons l ls =>
    simp only [List.all_cons, Bool.and_eq_true] at hg
    have hl : l ≠ [] := (goodLabel_spec hg.1).1
    cases ls with
    | nil => simpa [joinDots] using hl
    | cons m ms =>
      simp only [joinDots]
      intro hcontra
      exact hl (List.append_eq_nil.mp hcontra).1

theorem joinDots_head_ne {L : List (List Char)} (hne : L ≠ [])
    (hg : L.all goodLabel = true) : (joinDots L).head? ≠ some '-' := by
  cases L with
  | nil => exact absurd rfl hne
  | cons l ls =>
    simp only [List.all_cons, Bool.and_eq_true] at hg
    have hl := goodLabel_spec hg.1
    cases ls with
    | nil => simpa [joinDots] using hl.2.2.2.1
    | cons m ms =>
      cases l with
      | nil => exact absurd rfl hl.1
      | cons a l' => simpa [joinDots] using hl.2.2.2.1

theorem joinDots_getLast_ne {L : List (List Char)} (hne : L ≠ [])
    (hg : L.all goodLabel = true) : (joinDots L).getLast? ≠ some '-' := by
  induction L with
  | nil => exact absurd rfl hne
  | cons l ls ih =>
    simp only [List.all_cons, Bool.and_eq_true] at hg
    have hl := goodLabel_spec hg.1
    cases ls with
    | nil => simpa [joinDots] using hl.2.2.2.2
    | cons m ms =>
      have ih' := ih (by simp) hg.2
      have hjne : joinDots (m :: ms) ≠ [] := joinDots_ne_nil (by simp) hg.2
      simp only [joinDots]
      rw [List.getLast?_append_of_ne_nil l (by simp),
        getLast?_cons_ne hjne]
      exact ih'

theorem joinDots_all_allowed {L : List (List Char)} (hg : L.all goodLabel = true) :
    (joinDots L).all allowedHostChar = true := by
  induction L with
  | nil => rfl
  | cons l ls ih =>
    simp only [List.all_cons, Bool.and_eq_true] at hg
    have hl := (goodLabel_spec hg.1).2.2.1
    have hlall : l.all allowedHostChar = true := by
      rw [List.all_eq_true]
      exact fun c hc => (hl c hc).1
    cases ls with
    | nil => simpa [joinDots] using hlall
    | cons m ms =>
      have ih' := ih hg.2
      simp only [joinDots, List.all_append, List.all_cons, Bool.and_eq_true] at ih' ⊢
      exact ⟨hlall, by decide, ih'⟩

theorem joinDots_no_consec_dots {L : List (List Char)} (hne : L ≠ [])
    (hg : L.all goodLabel = true) : hasConsecDots (joinDots L) = false := by
  induction L with
  | nil => exact absurd rfl hne
  | cons l ls ih =>
    simp only [List.all_cons, Bool.and_eq_true] at hg
    have hl := goodLabel_spec hg.1
    have hldf : ∀ c ∈ l, c ≠ '.' := fun c hc => (hl.2.2.1 c hc).2
    cases ls with
    | nil => simpa [joinDots] using hasConsecDots_of_dotfree hldf
    | cons m ms =>
      have ih' := ih (by simp) hg.2
      have hg2 := hg.2
      simp only [List.all_cons, Bool.and_eq_true] at hg2
      have hm := goodLabel_spec hg2.1
      have hjh : (joinDots (m :: ms)).head? ≠ some '.' := by
        cases m with
        | nil => exact absurd rfl hm.1
        | cons a m' =>
          have hane : a ≠ '.' := (hm.2.2.1 a (by simp)).2
          cases ms with
          | nil => simpa [joinDots] using hane
          | cons p ps => simpa [joinDots] using hane
      simp only [joinDots]
      exact hasConsecDots_append_dot hldf ih' hjh

/-- C4, counterexample.  The hostname of 64 letters `a` is a single label
of length 64 (it contains no dot), which the claim says must be rejected,
yet `SecurityValidator.validate_hostname` accepts it: the function checks
total length, whole-hostname edge hyphens, consecutive dots and the
character set, but performs no per-label length check. -/
theorem c4_label_counterexample :
    (splitOnDot (List.replicate 64 'a') = [List.replicate 64 'a']) ∧
      63 < (List.replicate 64 'a').length ∧
      (validate_hostname (List.replicate 64 'a')).1 = true := by
  refine ⟨by decide, by decide, by decide⟩

/-- C4, amended.  `validate_hostname` accepts a hostname exactly when it is
nonempty, at most 253 characters, does not start or end with a hyphen,
has no consecutive dots, and uses only characters in `[A-Za-z0-9.-]`; in
particular every hostname of total length at most 253 all of whose labels
are 1-63 characters of `[A-Za-z0-9-]` with no edge hyphen is accepted.
Per-label emptiness, length and hyphen placement are otherwise not
checked. -/
theorem c4_validate_hostname_amended :
    (∀ h : List Char, (validate_hostname h).1 = true ↔
      (h ≠ [] ∧ h.length ≤ 253 ∧
        ¬(h.head? = some '-' ∨ h.getLast? = some '-') ∧
        hasConsecDots h = false ∧ h.all allowedHostChar = true)) ∧
    (∀ L : List (List Char), L ≠ [] → L.all goodLabel = true →
      (joinDots L).length ≤ 253 → (validate_hostname (joinDots L)).1 = true) := by
  constructor
  · intro h
    simp only [validate_hostname]
    split_ifs with h1 h2 h3 h4 h5
    · refine iff_of_false (by simp) ?_
      intro hc
      exact hc.1 h1
    · refine iff_of_false (by simp) ?_
      intro hc
      omega
    · refine iff_of_false (by simp) ?_
      intro hc
      exact hc.2.2.1 h3
    · refine iff_of_false (by simp) ?_
      intro hc
      rw [hc.2.2.2.1] at h4
      exact Bool.false_ne_true h4
    · refine iff_of_true rfl ⟨h1, by omega, h3, ?_, h5⟩
      cases hcd : hasConsecDots h with
      | false => rfl
      | true => exact absurd hcd h4
    · refine iff_of_false (by simp) ?_
      intro hc
      exact h5 hc.2.2.2.2
  · intro L hne hg hlen
    have h1 := joinDots_ne_nil hne hg
    have h2 := joinDots_head_ne hne hg
    have h3 := joinDots_getLast_ne hne hg
    have h4 := joinDots_no_consec_dots hne hg
    have h5 := joinDots_all_allowed hg
    simp only [validate_hostname]
    split_ifs with g1 g2 g3 g4
    · exact absurd g1 h1
    · omega
    · rcases g3 with g3 | g3
      · exact absurd g3 h2
      · exact absurd g3 h3
    · rw [h4] at g4
      exact absurd g4 Bool.false_ne_true
    · rfl

/-- C4, witness for the amended theorem at the hostname `ab.cd` and at the
label list `[ab, cd]`. -/
theorem c4_validate_hostname_amended_witness :
    (validate_hostname "ab.cd".data).1 = true ∧
      (validate_hostname (joinDots [['a', 'b'], ['c', 'd']])).1 = true :=
  ⟨(c4_validate_hostname_amended.1 "ab.cd".data).mpr (by decide),
    c4_validate_hostname_amended.2 [['a', 'b'], ['c', 'd']] (by decide)
      (by decide) (by decide)⟩

/-- C7: the expiry check drops whole days.  A session idle for 90000
seconds (25 hours) with `max_idle_time = 3600` reports NOT expired, because
`timedelta.seconds` is `90000 % 86400 = 3600`, which is not greater than
3600 — yet 90000 seconds of idleness exceed the allowed 3600, so the claim
(and the sweep intent) say it is expired.  The two instances named by the
claim (3601 and 3599 seconds of idleness) do behave as claimed. -/
theorem c7_is_expired_drops_days :
    (is_expired { session_id := "s", created := 0, last_activity := 0 } 3601
        = true) ∧
    (is_expired { session_id := "s", created := 0, last_activity := 0 } 3599
        = false) ∧
    (3600 < (90000 : Int) - 0) ∧
    (is_expired { session_id := "s", created := 0, last_activity := 0 } 90000
        = false) := by decide

/-- C6, counterexample.  A successful `execute_in_session` call on a known
session leaves the command history unchanged — the command is not appended
(the source updates only `last_activity`; `add_command` is never called). -/
theorem c6_history_not_appended_counterexample :
    (execute_in_session
      [("t", { session_id := "t", created := 0, last_activity := 0,
               command_history := ["ls"] })] "t" "pwd" 5 (some "done")).2.success
        = true ∧
    (lookupSession (execute_in_session
      [("t", { session_id := "t", created := 0, last_activity := 0,
               command_history := ["ls"] })] "t" "pwd" 5 (some "done")).1
        "t").map (·.command_history) = some ["ls"] := by decide

theorem keepLast_append (l cs : List String) :
    keepLast 100 (keepLast 100 l ++ cs) = keepLast 100 (l ++ cs) := by
  simp only [keepLast]
  rw [← List.drop_append_of_le_length (by omega : l.length - 100 ≤ l.length),
    List.drop_drop, List.length_append, List.length_drop]
  congr 1
  simp only [List.length_append]
  omega

theorem add_command_history (s : TerminalSession) (c : String) (now : Int) :
    (add_command s c now).command_history =
      keepLast 100 (s.command_history ++ [c]) := by
  simp only [add_command, keepLast]
  split_ifs with h
  · rfl
  · rw [show (s.command_history ++ [c]).length - 100 = 0 by omega, List.drop_zero]

theorem keepLast_length_le (l : List String) : (keepLast 100 l).length ≤ 100 := by
  simp only [keepLast, List.length_drop]
  omega

theorem add_command_fold (cmds : List String) (s : TerminalSession) (now : Int)
    (h : s.command_history.length ≤ 100) :
    (cmds.foldl (fun t c => add_command t c now) s).command_history =
      keepLast 100 (s.command_history ++ cmds) := by
  induction cmds generalizing s with
  | nil =>
    simp only [List.foldl_nil, List.append_nil, keepLast]
    rw [show s.command_history.length - 100 = 0 by omega, List.drop_zero]
  | cons c cs ih =>
    have hlen : (add_command s c now).command_history.length ≤ 100 := by
      rw [add_command_history]
      exact keepLast_length_le _
    rw [List.foldl_cons, ih _ hlen, add_command_history, keepLast_append,
      List.append_assoc]
    rfl

theorem lookup_update (sessions : List (String × TerminalSession))
    (sid : String) (s s' : TerminalSession)
    (h : lookupSession sessions sid = some s) :
    lookupSession (updateSession sessions sid s') sid = some s' := by
  induction sessions with
  | nil => simp [lookupSession] at h
  | cons p ps ih =>
    by_cases hq : p.1 = sid
    · subst hq
      simp [lookupSession, updateSession, List.find?_cons]
    · have hb : (p.1 == sid) = false := by simpa using hq
      simp only [lookupSession, updateSession, List.map_cons, hb,
        Bool.false_eq_true, if_false, List.find?_cons] at h ⊢
      exact ih h

/-- C6, amended.  A successful `execute_in_session` on a known session
updates only `last_activity` and succeeds, leaving the command history
unchanged; the bounded history lives in `add_command`, which keeps at most
the last 100 entries in order, so pushing 150 commands through
`add_command` onto a fresh session leaves exactly commands 51-150. -/
theorem c6_session_history_amended :
    (∀ (sessions : List (String × TerminalSession)) (sid cmd out : String)
      (now : Int) (s : TerminalSession),
      lookupSession sessions sid = some s →
      (execute_in_session sessions sid cmd now (some out)).2.success = true ∧
      lookupSession (execute_in_session sessions sid cmd now (some out)).1 sid =
        some { s with last_activity := now }) ∧
    (∀ (s : TerminalSession) (cmds : List String) (now : Int),
      s.command_history.length ≤ 100 →
      (cmds.foldl (fun t c => add_command t c now) s).command_history =
        keepLast 100 (s.command_history ++ cmds)) ∧
    (∀ (cmds : List String) (now : Int), cmds.length = 150 →
      (cmds.foldl (fun t c => add_command t c now)
          { session_id := "f", created := 0, last_activity := 0 }).command_history
        = cmds.drop 50) := by
  refine ⟨?_, fun s cmds now h => add_command_fold cmds s now h, ?_⟩
  · intro sessions sid cmd out now s hs
    constructor
    · simp [execute_in_session, hs]
    · simp only [execute_in_session, hs]
      exact lookup_update sessions sid s _ hs
  · intro cmds now h
    rw [add_command_fold cmds _ now (by simp)]
    simp only [keepLast, List.nil_append, h]

/-- C6, witness: one successful call on a known session, the general
bounded-history law at a two-element history, and the 150-command law at
the list of numerals 1-150. -/
theorem c6_session_history_amended_witness :
    ((execute_in_session
        [("t", { session_id := "t", created := 0, last_activity := 0,
                 command_history := ["a"] })] "t" "b" 7 (some "o")).2.success
      = true) ∧
    ((["x", "y"].foldl
        (fun t c => add_command t c 3)
        { session_id := "u", created := 0, last_activity := 0,
          command_history := ["w"] }).command_history =
      keepLast 100 (["w"] ++ ["x", "y"])) ∧
    (((List.range 150).map toString).foldl
        (fun t c => add_command t c 9)
        { session_id := "f", created := 0, last_activity := 0 }).command_history
      = ((List.range 150).map toString).drop 50 :=
  ⟨(c6_session_history_amended.1 [("t",
      { session_id := "t", created := 0, last_activity := 0,
        command_history := ["a"] })] "t" "b" "o" 7
      { session_id := "t", created := 0, last_activity := 0,
        command_history := ["a"] } (by decide)).1,
    c6_session_history_amended.2.1
      { session_id := "u", created := 0, last_activity := 0,
        command_history := ["w"] } ["x", "y"] 3 (by decide),
    c6_session_history_amended.2.2 ((List.range 150).map toString) 9
      (by simp)⟩

theorem filter_window_keeps {st : List ℚ} {now T : ℚ}
    (hw : ∀ x ∈ st, T ≤ x) (hnow : now < T + 60) :
    st.filter (fun t => now - t < 60) = st := by
  rw [List.filter_eq_self]
  intro x hx
  have := hw x hx
  simp only [decide_eq_true_eq]
  linarith

theorem rateLimitRun_window (ts : List ℚ) (st : List ℚ) (T : ℚ)
    (hw : ∀ x ∈ st ++ ts, T ≤ x ∧ x < T + 60)
    (hlen : st.length + ts.length ≤ 60) :
    rateLimitRun ts st 60 = (List.replicate ts.length true, st ++ ts) := by
  induction ts generalizing st with
  | nil => simp [rateLimitRun]
  | cons t ts' ih =>
    have hkeep : st.filter (fun x => t - x < 60) = st :=
      filter_window_keeps (fun x hx => (hw x (by simp [hx])).1)
        (hw t (by simp)).2
    have hlt : ¬ (60 ≤ st.length) := by
      simp only [List.length_cons] at hlen
      omega
    have hstep : check_rate_limit st t 60 = (true, st ++ [t]) := by
      simp only [check_rate_limit, hkeep, if_neg hlt]
    have hw' : ∀ x ∈ (st ++ [t]) ++ ts', T ≤ x ∧ x < T + 60 := by
      intro x hx
      apply hw
      simp only [List.append_assoc, List.singleton_append] at hx
      exact hx
    have hlen' : (st ++ [t]).length + ts'.length ≤ 60 := by
      simp only [List.length_append, List.length_cons, List.length_nil]
        at hlen ⊢
      omega
    simp only [rateLimitRun, hstep, ih (st ++ [t]) hw' hlen',
      List.length_cons, List.replicate_succ, List.append_assoc,
      List.singleton_append]

/-- C3: the rate limiter.  First, the check itself: it keeps exactly the
timestamps aged under 60 seconds, rejects exactly when at least the
ceiling remain, and appends the current time exactly on acceptance.
Second, the behaviour named by the claim with ceiling 60: starting from an empty
record, 60 calls inside one 60-second window are all accepted; a 61st call
inside the same window is rejected and records nothing; and once every
recorded timestamp is at least 60 seconds old, a new call is accepted
again. -/
theorem c3_rate_limit :
    (∀ (times : List ℚ) (now : ℚ) (maxReq : Nat),
      ((check_rate_limit times now maxReq).1 = false ↔
        maxReq ≤ (times.filter (fun t => now - t < 60)).length) ∧
      (check_rate_limit times now maxReq).2 =
        (if maxReq ≤ (times.filter (fun t => now - t < 60)).length then
          times.filter (fun t => now - t < 60)
        else times.filter (fun t => now - t < 60) ++ [now])) ∧
    (∀ (ts : List ℚ) (T : ℚ), (∀ x ∈ ts, T ≤ x ∧ x < T + 60) →
      ts.length ≤ 60 →
      rateLimitRun ts [] 60 = (List.replicate ts.length true, ts)) ∧
    (∀ (st : List ℚ) (now T : ℚ), (∀ x ∈ st, T ≤ x ∧ x < T + 60) →
      T ≤ now → now < T + 60 → st.length = 60 →
      check_rate_limit st now 60 = (false, st)) ∧
    (∀ (st : List ℚ) (now : ℚ), (∀ t ∈ st, 60 ≤ now - t) →
      check_rate_limit st now 60 = (true, [now])) := by
  refine ⟨?_, ?_, ?_, ?_⟩
  · intro times now maxReq
    constructor
    · simp only [check_rate_limit]
      split_ifs with h
      · simp [h]
      · simp [h]
    · simp only [check_rate_limit]
      split_ifs with h
      · rfl
      · rfl
  · intro ts T hw hlen
    simpa using rateLimitRun_window ts [] T (by simpa using hw) (by simpa using hlen)
  · intro st now T hw hTn hnow hlen
    have hkeep : st.filter (fun t => now - t < 60) = st :=
      filter_window_keeps (fun x hx => (hw x hx).1) hnow
    simp only [check_rate_limit, hkeep, hlen, if_pos (le_refl 60)]
  · intro st now hold
    have hkeep : st.filter (fun t => now - t < 60) = [] := by
      rw [List.filter_eq_nil_iff]
      intro x hx
      have := hold x hx
      simp only [decide_eq_true_eq]
      push_neg
      linarith
    simp [check_rate_limit, hkeep]

/-- C3, witness: sixty calls at time 0 are accepted; a 61st call at time
30 is rejected; a later call at time 70 (at least 60 seconds after every
recorded call) is accepted. -/
theorem c3_rate_limit_witness :
    rateLimitRun (List.replicate 60 (0 : ℚ)) [] 60 =
      (List.replicate 60 true, List.replicate 60 (0 : ℚ)) ∧
    check_rate_limit (List.replicate 60 (0 : ℚ)) 30 60 =
      (false, List.replicate 60 (0 : ℚ)) ∧
    check_rate_limit (List.replicate 60 (0 : ℚ)) 70 60 = (true, [70]) ∧
    ((check_rate_limit [] 5 60).1 = false ↔
      60 ≤ (List.filter (fun t => (5 : ℚ) - t < 60) []).length) := by
  refine ⟨?_, ?_, ?_, ?_⟩
  · have := c3_rate_limit.2.1 (List.replicate 60 (0 : ℚ)) 0
      (by intro x hx; rw [List.eq_of_mem_replicate hx]; norm_num)
      (by simp)
    simpa using this
  · exact c3_rate_limit.2.2.1 (List.replicate 60 (0 : ℚ)) 30 0
      (by intro x hx; rw [List.eq_of_mem_replicate hx]; norm_num)
      (by norm_num) (by norm_num) (by simp)
  · exact c3_rate_limit.2.2.2 (List.replicate 60 (0 : ℚ)) 70
      (by intro x hx; rw [List.eq_of_mem_replicate hx]; norm_num)
  · exact (c3_rate_limit.1 [] 5 60).1

theorem firstMinBy_eq_none {l : List TunnelEndpoint} :
    firstMinBy l = none ↔ l = [] := by
  cases l with
  | nil => simp [firstMinBy]
  | cons x xs =>
    simp only [firstMinBy]
    cases firstMinBy xs with
    | none => simp
    | some m =>
      dsimp only
      split_ifs <;> simp

theorem insertionSort_head_eq_firstMinBy (l : List TunnelEndpoint) :
    (List.insertionSort (fun a b => rtKey a ≤ rtKey b) l).head? =
      firstMinBy l := by
  induction l with
  | nil => rfl
  | cons x xs ih =>
    rw [List.insertionSort]
    cases hs : List.insertionSort (fun a b => rtKey a ≤ rtKey b) xs with
    | nil =>
      rw [hs] at ih
      simp only [firstMinBy, ← ih]
      rfl
    | cons y ys =>
      rw [hs] at ih
      simp only [firstMinBy, ← ih, List.head?, List.orderedInsert]
      dsimp only
      split_ifs <;> rfl

theorem firstMinBy_min (l : List TunnelEndpoint) :
    ∀ m : TunnelEndpoint, firstMinBy l = some m →
    ∃ l₁ l₂, l = l₁ ++ m :: l₂ ∧ (∀ x ∈ l₁, rtKey m < rtKey x) ∧
      (∀ x ∈ l, rtKey m ≤ rtKey x) := by
  induction l with
  | nil =>
    intro m h
    simp [firstMinBy] at h
  | cons x xs ih =>
    intro m h
    simp only [firstMinBy] at h
    cases hxs : firstMinBy xs with
    | none =>
      rw [hxs] at h
      dsimp only at h
      have hx : m = x := by simpa using h.symm
      subst hx
      have : xs = [] := firstMinBy_eq_none.mp hxs
      subst this
      exact ⟨[], [], rfl, by simp, by simp⟩
    | some m' =>
      rw [hxs] at h
      dsimp only at h
      obtain ⟨l₁, l₂, heq, hstrict, hall⟩ := ih m' hxs
      by_cases hle : rtKey x ≤ rtKey m'
      · rw [if_pos hle] at h
        have hx : m = x := by simpa using h.symm
        subst hx
        refine ⟨[], xs, rfl, by simp, ?_⟩
        intro z hz
        rcases List.mem_cons.mp hz with hz | hz
        · exact hz ▸ le_refl _
        · exact le_trans hle (hall z hz)
      · rw [if_neg hle] at h
        have hm : m = m' := by simpa using h.symm
        subst hm
        refine ⟨x :: l₁, l₂, by rw [heq, List.cons_append], ?_, ?_⟩
        · intro z hz
          rcases List.mem_cons.mp hz with hz | hz
          · exact hz ▸ lt_of_not_le hle
          · exact hstrict z hz
        · intro z hz
          rcases List.mem_cons.mp hz with hz | hz
          · exact hz ▸ le_of_lt (lt_of_not_le hle)
          · exact hall z hz

/-- C9, counterexample.  Endpoint `a` probed successfully with status
`active` and `response_time = 0.0`; endpoint `b` likewise with
`response_time = 5.0`.  The minimum response time is at `a` (0 < 5), but
the sort key `x.response_time or float('inf')` treats the falsy `0.0` as
infinity, so `find_best_endpoint` returns `b`, not `a`. -/
theorem c9_zero_response_time_counterexample :
    find_best_endpoint [{ hostname := "a", status := "active", response_time := some 0 }, { hostname := "b", status := "active", response_time := some 5 }] [true, true] = some { hostname := "b", status := "active", response_time := some 5 } ∧
      ((0 : ℚ) < 5) := by
  constructor
  · rfl
  · norm_num

/-- C9, amended.  `find_best_endpoint` returns the first endpoint in
registry order among those whose probe returned `True` with status
`active` that minimises the key `response_time or inf` — so ties keep
registry order and a `None` or `0.0` response time sorts as infinitely
slow — and returns `none` when no endpoint qualifies.  On the claim
instance (active endpoints with response times 0.5s and 2.0s) it returns
the first. -/
theorem c9_find_best_endpoint_amended :
    (∀ (endpoints : List TunnelEndpoint) (results : List Bool),
      find_best_endpoint endpoints results =
        firstMinBy (activeOf endpoints results)) ∧
    (∀ (endpoints : List TunnelEndpoint) (results : List Bool),
      activeOf endpoints results = [] →
      find_best_endpoint endpoints results = none) ∧
    (∀ (l : List TunnelEndpoint) (m : TunnelEndpoint), firstMinBy l = some m →
      ∃ l₁ l₂, l = l₁ ++ m :: l₂ ∧ (∀ x ∈ l₁, rtKey m < rtKey x) ∧
        (∀ x ∈ l, rtKey m ≤ rtKey x)) ∧
    ((mkRat 1 2 : ℚ) = 1/2 ∧
      find_best_endpoint [{ hostname := "a", status := "active", response_time := some (mkRat 1 2) }, { hostname := "b", status := "active", response_time := some 2 }] [true, true] = some { hostname := "a", status := "active", response_time := some (mkRat 1 2) }) := by
  refine ⟨?_, ?_, firstMinBy_min, by norm_num [mkRat, Rat.normalize], by rfl⟩
  · intro endpoints results
    simp only [find_best_endpoint]
    split_ifs with h
    · rw [h]
      rfl
    · exact insertionSort_head_eq_firstMinBy _
  · intro endpoints results h
    simp [find_best_endpoint, h]

/-- C9, witness for the amended theorem at concrete endpoint lists. -/
theorem c9_find_best_endpoint_amended_witness :
    find_best_endpoint [{ hostname := "x", status := "failed", response_time := some 1 }] [true] = firstMinBy (activeOf [{ hostname := "x", status := "failed", response_time := some 1 }] [true]) ∧
    find_best_endpoint [{ hostname := "x", status := "failed", response_time := some 1 }] [true] = none ∧
    (∃ l₁ l₂, [({ hostname := "y", status := "active", response_time := some 3 } : TunnelEndpoint)] = l₁ ++ ({ hostname := "y", status := "active", response_time := some 3 } : TunnelEndpoint) :: l₂ ∧
      (∀ x ∈ l₁, rtKey { hostname := "y", status := "active", response_time := some 3 } < rtKey x) ∧
      (∀ x ∈ [({ hostname := "y", status := "active", response_time := some 3 } : TunnelEndpoint)], rtKey { hostname := "y", status := "active", response_time := some 3 } ≤ rtKey x)) :=
  ⟨c9_find_best_endpoint_amended.1 [{ hostname := "x", status := "failed", response_time := some 1 }] [true],
    c9_find_best_endpoint_amended.2.1 [{ hostname := "x", status := "failed", response_time := some 1 }] [true] (by rfl),
    c9_find_best_endpoint_amended.2.2.1 [{ hostname := "y", status := "active", response_time := some 3 }] { hostname := "y", status := "active", response_time := some 3 } (by rfl)⟩

theorem health_check_sweep_get (endpoints : List TunnelEndpoint)
    (outcomes : List ProbeOutcome) (now : Int) :
    ∀ (i : Nat) (e : TunnelEndpoint) (out : ProbeOutcome),
      endpoints[i]? = some e → outcomes[i]? = some out →
      (health_check_sweep endpoints outcomes now)[i]? =
        some (test_endpoint e out now).1 := by
  induction endpoints generalizing outcomes with
  | nil => intro i e out he ho; simp at he
  | cons a as ih =>
    intro i e out he ho
    cases outcomes with
    | nil => simp at ho
    | cons b bs =>
      cases i with
      | zero =>
        simp only [List.getElem?_cons_zero, Option.some_inj] at he ho
        subst he
        subst ho
        simp [health_check_sweep, List.zip_cons_cons]
      | succ n =>
        simp only [List.getElem?_cons_succ] at he ho
        simpa [health_check_sweep, List.zip_cons_cons] using
          ih bs n e out he ho

/-- C5, counterexample.  An authentication failure sets the status to
`failed` and returns `False`, but does not record `last_tested`: the
`except paramiko.AuthenticationException` handler (lines 463-466) touches
only `status`, while the claim says every failing probe records
`last_tested`. -/
theorem c5_auth_failure_counterexample :
    (test_endpoint { hostname := "h" } .connectAuthFail 100).1.status
        = "failed" ∧
    (test_endpoint { hostname := "h" } .connectAuthFail 100).2 = false ∧
    (test_endpoint { hostname := "h" } .connectAuthFail 100).1.last_tested
        = none :=
  ⟨rfl, rfl, rfl⟩

/-- C5, amended.  Every failing probe (authentication, SSH/protocol,
timeout, unexpected echo, or any other exception) sets the status to
`failed` and returns `False` instead of raising; `last_tested` is
recorded only on the generic-exception paths and on success, not in the
authentication, SSH, timeout or unexpected-response handlers; and one
health-check sweep probes every endpoint with its own outcome, so a
failure of one endpoint never prevents the others from being probed. -/
theorem c5_test_endpoint_amended :
    (∀ (e : TunnelEndpoint) (out : ProbeOutcome) (now : Int),
      isFailureOutcome out = true →
      (test_endpoint e out now).1.status = "failed" ∧
      (test_endpoint e out now).2 = false) ∧
    (∀ (e : TunnelEndpoint) (out : ProbeOutcome) (now : Int),
      (test_endpoint e out now).1.last_tested =
        (if recordsLastTested out then some now else e.last_tested)) ∧
    (∀ (endpoints : List TunnelEndpoint) (outcomes : List ProbeOutcome)
      (now : Int) (i : Nat) (e : TunnelEndpoint) (out : ProbeOutcome),
      endpoints[i]? = some e → outcomes[i]? = some out →
      (health_check_sweep endpoints outcomes now)[i]? =
        some (test_endpoint e out now).1) := by
  refine ⟨?_, ?_, fun es os now i e out he ho =>
    health_check_sweep_get es os now i e out he ho⟩
  · intro e out now hfail
    cases out <;> simp_all [isFailureOutcome, test_endpoint]
  · intro e out now
    cases out <;> simp [recordsLastTested, test_endpoint]

/-- C5, witness: an SSH failure on a concrete endpoint, the
`last_tested` law at a timeout, and a two-endpoint sweep in which the
first probe fails with an authentication error and the second endpoint is
still probed (successfully). -/
theorem c5_test_endpoint_amended_witness :
    ((test_endpoint { hostname := "h1" } .connectSSHFail 5).1.status
        = "failed" ∧
      (test_endpoint { hostname := "h1" } .connectSSHFail 5).2 = false) ∧
    ((test_endpoint { hostname := "h1", last_tested := some 3 }
        .connectTimeout 9).1.last_tested =
      (if recordsLastTested .connectTimeout then some 9 else some 3)) ∧
    (health_check_sweep [{ hostname := "h1" }, { hostname := "h2" }] [.connectAuthFail, .ok 1] 7)[1]? = some (test_endpoint { hostname := "h2" } (.ok 1) 7).1 :=
  ⟨c5_test_endpoint_amended.1 { hostname := "h1" } .connectSSHFail 5 rfl,
    c5_test_endpoint_amended.2.1
      { hostname := "h1", last_tested := some 3 } .connectTimeout 9,
    c5_test_endpoint_amended.2.2
      [{ hostname := "h1" }, { hostname := "h2" }] [.connectAuthFail, .ok 1]
      7 1 { hostname := "h2" } (.ok 1) rfl rfl⟩

theorem dropWhile_length_le (p : Char → Bool) (l : List Char) :
    (l.dropWhile p).length ≤ l.length := by
  induction l with
  | nil => simp
  | cons a t ih =>
    rw [List.dropWhile_cons]
    split_ifs <;> simp <;> omega

theorem takeWhile_length_le (p : Char → Bool) (l : List Char) :
    (l.takeWhile p).length ≤ l.length := by
  induction l with
  | nil => simp
  | cons a t ih =>
    rw [List.takeWhile_cons]
    split_ifs <;> simp <;> omega

theorem credMatch_pos {kws : List (List Char)} {s : List Char} {n : Nat}
    (h : credMatch kws s = some n) : 0 < n ∧ n ≤ s.length := by
  unfold credMatch at h
  cases hf : kws.find? (fun kw => ciPrefix kw s) with
  | none => rw [hf] at h; cases h
  | some kw =>
    rw [hf] at h
    dsimp only at h
    cases hd : s.drop kw.length with
    | nil => rw [hd] at h; cases h
    | cons c r2 =>
      rw [hd] at h
      dsimp only at h
      split_ifs at h with h1 h2
      all_goals try cases h
      all_goals
        have hk : kw.length ≤ s.length := by
          by_contra hgt
          push_neg at hgt
          rw [List.drop_eq_nil_of_le (le_of_lt hgt)] at hd
          cases hd
      all_goals
        have hlen : r2.length + 1 = s.length - kw.length := by
          have hcg := congrArg List.length hd
          simp only [List.length_drop, List.length_cons] at hcg
          omega
      all_goals have hsp := takeWhile_length_le pyIsSpace r2
      all_goals
        have hval := takeWhile_length_le (fun d => ¬ pyIsSpace d)
          (r2.drop (r2.takeWhile pyIsSpace).length)
      all_goals simp only [List.length_drop] at hval
      all_goals exact ⟨by omega, by omega⟩

/-- C1: with `bypass_security=False`, a command the validator rejects gets
a structured `success=False` result carrying the validation error, a
blocked-command security event is logged, and `_get_ssh_connection` is
never invoked (third component `false`) — the function returns normally
(`.ok`), no exception propagating.  If instead the rate limit trips, the
call also returns a structured failure without touching the pool.  The
validator really does reject the claim example: `rm -rf /`. -/
theorem c1_blocked_command_no_pool :
    (∀ (e : TunnelEndpoint) (command msg : String) (outc : ExecOutcome),
      execute_command e command false true (some (false, msg)) outc =
        .ok ({ success := false,
               error := some ("Security validation failed: " ++ msg),
               command := command, endpointHost := e.hostname },
          [SecEvent.blocked_command ("Blocked dangerous command on " ++
            e.hostname ++ ": " ++ command)], false)) ∧
    (∀ (e : TunnelEndpoint) (command : String) (bypass : Bool)
      (validation : Option (Bool × String)) (outc : ExecOutcome),
      execute_command e command bypass false validation outc =
        .ok ({ success := false, error := some "Rate limit exceeded",
               command := command, endpointHost := e.hostname }, [], false)) ∧
    validate_command "rm -rf /" false =
      some (false, "Command contains dangerous pattern: rm\\s+-rf\\s+/") := by
  refine ⟨?_, ?_, by decide⟩
  · intro e command msg outc
    rfl
  · intro e command bypass validation outc
    rfl

/-- C1, witness: the blocked path at a concrete endpoint and command, and
the rate-limited path. -/
theorem c1_blocked_command_no_pool_witness :
    execute_command { hostname := "h" } "rm -rf /" false true
        (some (false, "m")) .cmdTimeout =
      .ok ({ success := false,
             error := some ("Security validation failed: " ++ "m"),
             command := "rm -rf /", endpointHost := "h" },
        [SecEvent.blocked_command ("Blocked dangerous command on " ++
          "h" ++ ": " ++ "rm -rf /")], false) ∧
    execute_command { hostname := "h" } "ls" false false (some (true, ""))
        (.ok "o" "" 0) =
      .ok ({ success := false, error := some "Rate limit exceeded",
             command := "ls", endpointHost := "h" }, [], false) :=
  ⟨c1_blocked_command_no_pool.1 { hostname := "h" } "rm -rf /" "m" .cmdTimeout,
    c1_blocked_command_no_pool.2.1 { hostname := "h" } "ls" false
      (some (true, "")) (.ok "o" "" 0)⟩

/-- C10: `validate_command` is not total.  On a whitespace-only command the
stripped command is empty, no dangerous or injection pattern fires, and
`command.split()[0]` raises IndexError (modelled as `none`); on
`ls | |` the injection match `| ` strips to nothing and
`re.sub(...).split()[0]` raises IndexError inside the chaining loop.  A
normal command returns the documented pair, so the claim correctly
describes the intent (the docstring promises a tuple) and the code slips
on these inputs. -/
theorem c10_validate_command_raises :
    validate_command "   " false = none ∧
    validate_command "ls | |" false = none ∧
    validate_command "ls -la" false = some (true, "") := by
  exact ⟨by decide, by decide, by decide⟩

theorem poolInv_init (maxConn maxPool : Nat) :
    poolInv maxConn maxPool poolInit := by
  simp [poolInv, poolInit]

theorem poolInv_step {maxConn maxPool : Nat} {st st' : PoolState}
    {ev : PoolEvent} (hinv : poolInv maxConn maxPool st)
    (hstep : poolStep maxConn maxPool st ev = some st') :
    poolInv maxConn maxPool st' := by
  obtain ⟨h0, hc, hp, ho, hs⟩ := hinv
  cases ev <;>
    simp only [poolStep] at hstep <;>
    split_ifs at hstep with hg <;>
    cases hstep <;>
    simp only [poolInv] at * <;>
    refine ⟨?_, ?_, ?_, ?_, ?_⟩ <;>
    push_cast at * <;>
    omega

theorem poolInv_run {maxConn maxPool : Nat} {st st' : PoolState}
    {evs : List PoolEvent} (hinv : poolInv maxConn maxPool st)
    (hrun : poolRun maxConn maxPool st evs = some st') :
    poolInv maxConn maxPool st' := by
  induction evs generalizing st with
  | nil =>
    simp only [poolRun, Option.some_inj] at hrun
    exact hrun ▸ hinv
  | cons ev evs ih =>
    simp only [poolRun] at hrun
    cases hstep : poolStep maxConn maxPool st ev with
    | none => rw [hstep] at hrun; cases hrun
    | some st1 =>
      rw [hstep] at hrun
      exact ih (poolInv_step hinv hstep) hrun

/-- C2: across every sequence of acquisitions and releases the source can
perform on one endpoint (releases return previously acquired clients,
including releases from `execute_command`'s `finally` after the body
raised, modelled by the caller releasing a client of either liveness), the
endpoint counter satisfies `0 <= current_connections <= max_connections`
and the idle pool for the endpoint key holds at most `_max_pool_size`
connections — at every intermediate point, since every prefix of a run is
a run. -/
theorem c2_pool_invariant :
    (∀ (maxConn maxPool : Nat), poolInv maxConn maxPool poolInit) ∧
    (∀ (maxConn maxPool : Nat) (st st' : PoolState) (ev : PoolEvent),
      poolInv maxConn maxPool st →
      poolStep maxConn maxPool st ev = some st' →
      poolInv maxConn maxPool st') ∧
    (∀ (maxConn maxPool : Nat) (evs : List PoolEvent) (st : PoolState),
      poolRun maxConn maxPool poolInit evs = some st →
      0 ≤ st.current ∧ st.current ≤ (maxConn : Int) ∧ st.pool ≤ maxPool) :=
  ⟨poolInv_init,
    fun _ _ _ _ _ hinv hstep => poolInv_step hinv hstep,
    fun maxConn maxPool evs st hrun =>
      (poolInv_run (poolInv_init maxConn maxPool) hrun).imp id
        (fun h => ⟨h.1, h.2.1⟩)⟩

/-- C2, witness: a five-event run on the default bounds (acquire new,
release into the pool, acquire the pooled connection alive, release dead,
then an acquisition that finds the pool empty) ends with counter 1 and
empty pool, within bounds. -/
theorem c2_pool_invariant_witness :
    poolRun 5 5 poolInit
        [.acquireNew, .releaseAlivePool, .acquirePooledAlive, .releaseDead,
         .acquireNew] =
      some { current := 1, pool := 0, outstanding := 1 } ∧
    (0 ≤ (1 : Int) ∧ (1 : Int) ≤ (5 : Nat) ∧ (0 : Nat) ≤ 5) :=
  ⟨by decide,
    c2_pool_invariant.2.2 5 5
      [.acquireNew, .releaseAlivePool, .acquirePooledAlive, .releaseDead,
       .acquireNew]
      { current := 1, pool := 0, outstanding := 1 } (by decide)⟩

theorem subAllF_fuel {kws : List (List Char)} {repl : List Char} :
    ∀ (fuel fuel' : Nat) (s : List Char), s.length ≤ fuel →
      s.length ≤ fuel' → subAllF kws repl fuel s = subAllF kws repl fuel' s := by
  intro fuel
  induction fuel with
  | zero =>
    intro fuel' s hs hs'
    have : s = [] := List.length_eq_zero.mp (Nat.le_zero.mp hs)
    subst this
    cases fuel' <;> rfl
  | succ f ih =>
    intro fuel' s hs hs'
    cases s with
    | nil => cases fuel' <;> rfl
    | cons c rest =>
      cases fuel' with
      | zero => simp at hs'
      | succ f' =>
        simp only [subAllF]
        cases hm : credMatch kws (c :: rest) with
        | none =>
          dsimp only
          simp only [List.length_cons] at hs hs'
          rw [ih f' rest (by omega) (by omega)]
        | some n =>
          have hp := credMatch_pos hm
          simp only [List.length_cons] at hs hs'
          have hd : ((c :: rest).drop n).length ≤ f := by
            simp only [List.length_drop, List.length_cons]
            omega
          have hd' : ((c :: rest).drop n).length ≤ f' := by
            simp only [List.length_drop, List.length_cons]
            omega
          dsimp only
          rw [ih f' _ hd hd']

theorem subAll_nil {kws : List (List Char)} {repl : List Char} :
    subAll kws repl [] = [] := rfl

theorem subAll_cons_match {kws : List (List Char)} {repl : List Char}
    {c : Char} {rest : List Char} {n : Nat}
    (hm : credMatch kws (c :: rest) = some n) :
    subAll kws repl (c :: rest) = repl ++ subAll kws repl ((c :: rest).drop n) := by
  have hp := credMatch_pos hm
  simp only [subAll, List.length_cons, subAllF, hm]
  congr 1
  exact subAllF_fuel _ _ _ (by simp only [List.length_drop, List.length_cons]; omega)
    (le_refl _)

theorem subAll_cons_nomatch {kws : List (List Char)} {repl : List Char}
    {c : Char} {rest : List Char}
    (hm : credMatch kws (c :: rest) = none) :
    subAll kws repl (c :: rest) = c :: subAll kws repl rest := by
  simp only [subAll, List.length_cons, subAllF, hm]

theorem charLower_of_space {c : Char} (h : pyIsSpace c = true) :
    charLower c = c := by
  simp only [pyIsSpace, decide_eq_true_eq] at h
  rcases h with h | h | h | h | h | h <;> subst h <;> decide

theorem ciPrefix_space_head {kw : List Char} {c : Char} {s : List Char}
    (hkw : ∀ k ∈ kw, pyIsSpace k = false ∧ charLower k = k)
    (hne : kw ≠ []) (hc : pyIsSpace c = true) :
    ciPrefix kw (c :: s) = false := by
  cases kw with
  | nil => exact absurd rfl hne
  | cons k ks =>
    have hk := hkw k (by simp)
    simp only [ciPrefix, Bool.and_eq_false_iff]
    left
    simp only [beq_eq_false_iff_ne, ne_eq]
    intro heq
    rw [charLower_of_space hc, hk.2] at heq
    subst heq
    rw [hc] at hk
    exact Bool.noConfusion hk.1

theorem ciPrefix_nil_right {kw : List Char} (hne : kw ≠ []) :
    ciPrefix kw [] = false := by
  cases kw with
  | nil => exact absurd rfl hne
  | cons k ks => rfl

theorem ciPrefix_length_le {kw s : List Char} (h : ciPrefix kw s = true) :
    kw.length ≤ s.length := by
  induction kw generalizing s with
  | nil => simp
  | cons k ks ih =>
    cases s with
    | nil => cases h
    | cons c cs =>
      simp only [ciPrefix, Bool.and_eq_true] at h
      simp only [List.length_cons]
      exact Nat.succ_le_succ (ih h.2)

theorem ciPrefix_append_short {kw A B : List Char} (h : kw.length ≤ A.length) :
    ciPrefix kw (A ++ B) = ciPrefix kw A := by
  induction kw generalizing A with
  | nil => cases A <;> rfl
  | cons k ks ih =>
    cases A with
    | nil => simp at h
    | cons a A' =>
      simp only [List.cons_append, ciPrefix, List.append_eq]
      simp only [List.length_cons] at h
      rw [ih (by omega)]

theorem ciPrefix_append_benign {kw A B : List Char}
    (hkw : ∀ k ∈ kw, pyIsSpace k = false ∧ charLower k = k)
    (hB : benignB B = true) :
    ciPrefix kw (A ++ B) = true ↔ (kw.length ≤ A.length ∧ ciPrefix kw A = true) := by
  by_cases hlen : kw.length ≤ A.length
  · rw [ciPrefix_append_short hlen]
    simp [hlen]
  · constructor
    · intro h
      exfalso
      induction kw generalizing A with
      | nil => simp at hlen
      | cons k ks ih =>
        cases A with
        | nil =>
          simp only [List.nil_append] at h
          cases B with
          | nil => rw [ciPrefix_nil_right (by simp)] at h; cases h
          | cons b B' =>
            rw [ciPrefix_space_head hkw (by simp) (by simpa [benignB] using hB)]
              at h
            cases h
        | cons a A' =>
          simp only [List.cons_append, ciPrefix, List.append_eq,
            Bool.and_eq_true] at h
          simp only [List.length_cons] at hlen
          exact ih (fun k hk => hkw k (by simp [hk])) (by omega) h.2
    · intro h
      exact absurd h.1 hlen

theorem ciPrefix_drop_of_append {kw A B : List Char}
    (h : ciPrefix kw (A ++ B) = true) (hlen : A.length ≤ kw.length) :
    ciPrefix (kw.drop A.length) B = true := by
  induction A generalizing kw with
  | nil => simpa using h
  | cons a A' ih =>
    cases kw with
    | nil => simp at hlen
    | cons k ks =>
      simp only [List.cons_append, ciPrefix, List.append_eq,
        Bool.and_eq_true] at h
      simp only [List.length_cons] at hlen ⊢
      exact ih h.2 (by omega)

theorem takeWhile_append_of_all {p : Char → Bool} {A B : List Char}
    (h : ∀ a ∈ A, p a = true) :
    (A ++ B).takeWhile p = A ++ B.takeWhile p := by
  induction A with
  | nil => rfl
  | cons a A' ih =>
    simp only [List.cons_append, List.takeWhile_cons, h a (by simp), if_true]
    rw [ih (fun x hx => h x (by simp [hx]))]

theorem drop_length_takeWhile (p : Char → Bool) (l : List Char) :
    l.drop (l.takeWhile p).length = l.dropWhile p := by
  induction l with
  | nil => rfl
  | cons c l' ih =>
    simp only [List.takeWhile_cons, List.dropWhile_cons]
    cases hp : p c with
    | true => simpa using ih
    | false => simp

theorem head?_dropWhile {p : Char → Bool} {l : List Char} {c : Char}
    (h : (l.dropWhile p).head? = some c) : p c = false := by
  induction l with
  | nil => cases h
  | cons a l' ih =>
    rw [List.dropWhile_cons] at h
    split_ifs at h with hp
    · exact ih h
    · simp only [List.head?_cons, Option.some_inj] at h
      subst h
      simpa using hp

theorem dropWhile_ne_nil {p : Char → Bool} {l : List Char}
    (h : ∃ d ∈ l, p d = false) : l.dropWhile p ≠ [] := by
  induction l with
  | nil => simp at h
  | cons a l' ih =>
    rw [List.dropWhile_cons]
    obtain ⟨d, hd, hpd⟩ := h
    split_ifs with hp
    · rcases List.mem_cons.mp hd with h1 | h1
      · rw [h1] at hpd
        rw [hpd] at hp
        cases hp
      · exact ih ⟨d, h1, hpd⟩
    · simp

theorem drop_succ_of_drop_cons {s : List Char} {k : Nat} {c : Char}
    {r : List Char} (h : s.drop k = c :: r) : s.drop (k + 1) = r := by
  have : s.drop (k + 1) = (s.drop k).drop 1 := by
    rw [List.drop_drop]
  rw [this, h]
  rfl

theorem credMatch_shape {kws : List (List Char)} {s : List Char} {n : Nat}
    (h : credMatch kws s = some n) :
    ∃ kw c' r2, kws.find? (fun kw => ciPrefix kw s) = some kw ∧
      s.drop kw.length = c' :: r2 ∧ (c' = '=' ∨ c' = ':') ∧
      ((r2.drop (r2.takeWhile pyIsSpace).length).takeWhile
        (fun d => ¬ pyIsSpace d)).length ≠ 0 ∧
      n = kw.length + 1 + (r2.takeWhile pyIsSpace).length +
        ((r2.drop (r2.takeWhile pyIsSpace).length).takeWhile
          (fun d => ¬ pyIsSpace d)).length := by
  unfold credMatch at h
  cases hf : kws.find? (fun kw => ciPrefix kw s) with
  | none => rw [hf] at h; cases h
  | some kw =>
    rw [hf] at h
    dsimp only at h
    cases hd : s.drop kw.length with
    | nil => rw [hd] at h; cases h
    | cons c r2 =>
      rw [hd] at h
      dsimp only at h
      split_ifs at h with h1 h2
      all_goals try cases h
      exact ⟨kw, c, r2, rfl, hd, h1, h2, rfl⟩

theorem credMatch_none_of_no_kw {kws : List (List Char)} {s : List Char}
    (h : ∀ kw ∈ kws, ciPrefix kw s = false) : credMatch kws s = none := by
  unfold credMatch
  rw [List.find?_eq_none.mpr (fun kw hkw => by simp [h kw hkw])]

theorem credMatch_benign {kws : List (List Char)} {repl : List Char}
    (hP : PatOK kws repl) {s : List Char} (hs : benignB s = true) :
    credMatch kws s = none := by
  apply credMatch_none_of_no_kw
  intro kw hkw
  cases s with
  | nil => exact ciPrefix_nil_right (hP.kws_ne kw hkw)
  | cons c rest =>
    exact ciPrefix_space_head (fun k hk => hP.kws_chars kw hkw k hk)
      (hP.kws_ne kw hkw) (by simpa [benignB] using hs)

theorem credMatch_head_nonspace {kws : List (List Char)} {repl : List Char}
    (hP : PatOK kws repl) {s : List Char} {n : Nat}
    (h : credMatch kws s = some n) : benignB s = false := by
  cases hb : benignB s with
  | false => rfl
  | true => rw [credMatch_benign hP hb] at h; cases h

theorem credMatch_after {kws : List (List Char)} {s : List Char} {n : Nat}
    (h : credMatch kws s = some n) : benignB (s.drop n) = true := by
  obtain ⟨kw, c', r2, hf, hd, hsep, hval, hn⟩ := credMatch_shape h
  subst hn
  have h1 : s.drop (kw.length + 1) = r2 := drop_succ_of_drop_cons hd
  have h2 : s.drop (kw.length + 1 + (r2.takeWhile pyIsSpace).length +
      ((r2.drop (r2.takeWhile pyIsSpace).length).takeWhile
        (fun d => ¬ pyIsSpace d)).length) =
      ((r2.drop (r2.takeWhile pyIsSpace).length).drop
        (((r2.drop (r2.takeWhile pyIsSpace).length).takeWhile
          (fun d => ¬ pyIsSpace d)).length)) := by
    rw [← List.drop_drop, ← List.drop_drop, h1]
  rw [h2, drop_length_takeWhile]
  cases hD : ((r2.drop (r2.takeWhile pyIsSpace).length).dropWhile
      (fun d => ¬ pyIsSpace d)) with
  | nil => rfl
  | cons d rest =>
    have := head?_dropWhile (by rw [hD]; rfl :
      (((r2.drop (r2.takeWhile pyIsSpace).length)).dropWhile
        (fun d => ¬ pyIsSpace d)).head? = some d)
    simp only [benignB]
    simpa using this

theorem getLast?_of_drop {X : List Char} {k : Nat} (h : X.drop k ≠ []) :
    X.getLast? = (X.drop k).getLast? := by
  conv_lhs => rw [← List.take_append_drop k X]
  exact List.getLast?_append_of_ne_nil _ h

theorem credMatch_isSome {kws : List (List Char)} {s kw : List Char}
    {c' : Char} {r2 : List Char}
    (hf : kws.find? (fun kw => ciPrefix kw s) = some kw)
    (hd : s.drop kw.length = c' :: r2)
    (hsep : c' = '=' ∨ c' = ':')
    (hex : ∃ d ∈ r2, pyIsSpace d = false) :
    ∃ m, credMatch kws s = some m := by
  unfold credMatch
  rw [hf]
  dsimp only
  rw [hd]
  dsimp only
  rw [if_pos hsep]
  have hval : ((r2.drop (r2.takeWhile pyIsSpace).length).takeWhile
      (fun d => ¬ pyIsSpace d)).length ≠ 0 := by
    rw [drop_length_takeWhile]
    cases hD : r2.dropWhile pyIsSpace with
    | nil =>
      exact absurd hD (dropWhile_ne_nil (by
        obtain ⟨d, hd', hp⟩ := hex
        exact ⟨d, hd', hp⟩))
    | cons d rest =>
      have hdns := head?_dropWhile (show (r2.dropWhile pyIsSpace).head? =
        some d by rw [hD]; rfl)
      simp only [List.takeWhile_cons, hdns]
      simp
  rw [if_neg hval]
  exact ⟨_, rfl⟩

theorem credMatch_append_benign {kws : List (List Char)} {replP : List Char}
    (hP : PatOK kws replP) {X rest : List Char}
    (hX : ∀ c ∈ X, pyIsSpace c = false)
    (hlast : X.getLast? = some '*')
    (hrest : benignB rest = true) {m : Nat}
    (h : credMatch kws (X ++ rest) = some m) :
    m = X.length ∧ ∃ kw ∈ kws, ciPrefix kw X = true := by
  obtain ⟨kw, c', r2, hf, hd, hsep, hval, hn⟩ := credMatch_shape h
  have hkw_mem : kw ∈ kws := List.mem_of_find?_eq_some hf
  have hci : ciPrefix kw (X ++ rest) = true := by
    have := List.find?_some hf
    simpa using this
  have hbd := (ciPrefix_append_benign
    (fun k hk => hP.kws_chars kw hkw_mem k hk) hrest).mp hci
  have hdd : (X ++ rest).drop kw.length = X.drop kw.length ++ rest :=
    List.drop_append_of_le_length hbd.1
  rw [hdd] at hd
  cases hXd : X.drop kw.length with
  | nil =>
    rw [hXd, List.nil_append] at hd
    rw [hd] at hrest
    simp only [benignB] at hrest
    rcases hsep with hs1 | hs1 <;> rw [hs1] at hrest <;> cases hrest
  | cons x X' =>
    rw [hXd] at hd
    have hx : x = c' ∧ X' ++ rest = r2 := by
      have := hd
      simp only [List.cons_append, List.cons.injEq] at this
      exact this
    obtain ⟨hx1, hx2⟩ := hx
    cases hX' : X' with
    | nil =>
      exfalso
      have hlx : X.getLast? = some x := by
        rw [getLast?_of_drop (by rw [hXd]; simp), hXd, hX']
        rfl
      rw [hlast] at hlx
      have hxstar : x = '*' := by
        simpa using hlx.symm
      rw [hxstar] at hx1
      rcases hsep with hs1 | hs1 <;> rw [hs1] at hx1 <;> cases hx1
    | cons y X'' =>
      have hymem : y ∈ X := by
        have : y ∈ X.drop kw.length := by
          rw [hXd, hX']
          simp
        exact List.mem_of_mem_drop this
      have hXall : ∀ a ∈ X', pyIsSpace a = false := by
        intro a ha
        apply hX
        apply List.mem_of_mem_drop (n := kw.length)
        rw [hXd]
        simp [ha]
      have hsp0 : (r2.takeWhile pyIsSpace).length = 0 := by
        rw [← hx2, hX']
        simp only [List.cons_append, List.takeWhile_cons]
        rw [hXall y (by simp [hX'])]
        simp
      have htw_rest : rest.takeWhile (fun d => ¬ pyIsSpace d) = [] := by
        cases rest with
        | nil => rfl
        | cons r rest' =>
          simp only [benignB] at hrest
          simp only [List.takeWhile_cons, hrest]
          simp
      have hval_eq : ((r2.drop (r2.takeWhile pyIsSpace).length).takeWhile
          (fun d => ¬ pyIsSpace d)).length = X'.length := by
        rw [hsp0, List.drop_zero, ← hx2,
          takeWhile_append_of_all (fun a ha => by simp [hXall a ha]),
          htw_rest, List.append_nil]
      have hXlen : X.length = kw.length + X'.length + 1 := by
        have := congrArg List.length hXd
        simp only [List.length_drop, List.length_cons, hX',
          List.length_cons] at this ⊢
        have hk := hbd.1
        omega
      constructor
      · rw [hn, hval_eq, hsp0]
        omega
      · exact ⟨kw, hkw_mem, hbd.2⟩

theorem Canon_drop {kws : List (List Char)} {repl t : List Char} {k : Nat}
    (h : Canon kws repl t) : Canon kws repl (t.drop k) := by
  intro j n hm
  rw [List.drop_drop] at hm ⊢
  exact h (k + j) n hm

theorem drop_ne_nil_of_lt {A : List Char} {j : Nat} (h : j < A.length) :
    A.drop j ≠ [] := by
  intro hc
  have := congrArg List.length hc
  simp only [List.length_drop, List.length_nil] at this
  omega

theorem subAll_id {kws : List (List Char)} {repl : List Char}
    (hP : PatOK kws repl) :
    ∀ (N : Nat) (t : List Char), t.length ≤ N → Canon kws repl t →
      subAll kws repl t = t := by
  intro N
  induction N with
  | zero =>
    intro t ht _
    rw [List.length_eq_zero.mp (Nat.le_zero.mp ht)]
    rfl
  | succ N ih =>
    intro t ht hC
    cases t with
    | nil => rfl
    | cons c rest =>
      cases hm : credMatch kws (c :: rest) with
      | some n =>
        have hp := credMatch_pos hm
        rw [subAll_cons_match hm]
        have htake := hC 0 n (by simpa using hm)
        simp only [List.drop_zero] at htake
        rw [ih ((c :: rest).drop n)
          (by simp only [List.length_drop, List.length_cons] at ht ⊢; omega)
          (by simpa using Canon_drop (k := n) hC)]
        conv_rhs => rw [← List.take_append_drop n (c :: rest)]
        rw [htake]
      | none =>
        rw [subAll_cons_nomatch hm]
        rw [ih rest (by simp only [List.length_cons] at ht; omega)
          (by simpa using Canon_drop (k := 1) hC)]

theorem subAll_benign {kws : List (List Char)} {repl : List Char}
    (hP : PatOK kws repl) {t : List Char} (ht : benignB t = true) :
    benignB (subAll kws repl t) = true := by
  cases t with
  | nil => rfl
  | cons c rest =>
    have hm : credMatch kws (c :: rest) = none := credMatch_benign hP ht
    rw [subAll_cons_nomatch hm]
    simpa [benignB] using ht

theorem subAll_decomp {kws : List (List Char)} {repl : List Char} :
    ∀ (N : Nat) (t : List Char), t.length ≤ N →
      subAll kws repl t = t ∨
      ∃ q n', credMatch kws (t.drop q) = some n' ∧
        subAll kws repl t = t.take q ++ repl ++
          subAll kws repl ((t.drop q).drop n') := by
  intro N
  induction N with
  | zero =>
    intro t ht
    rw [List.length_eq_zero.mp (Nat.le_zero.mp ht)]
    left
    rfl
  | succ N ih =>
    intro t ht
    cases t with
    | nil => left; rfl
    | cons c rest =>
      cases hm : credMatch kws (c :: rest) with
      | some n =>
        right
        exact ⟨0, n, by simpa using hm, by rw [subAll_cons_match hm]; simp⟩
      | none =>
        rcases ih rest (by simp only [List.length_cons] at ht; omega) with
          h | ⟨q, n', hq, heq⟩
        · left
          rw [subAll_cons_nomatch hm, h]
        · right
          refine ⟨q + 1, n', by simpa using hq, ?_⟩
          rw [subAll_cons_nomatch hm, heq]
          simp [List.take_cons]

theorem canon_append_repl {kwsK : List (List Char)} {replK : List Char}
    {kwsJ : List (List Char)} {replJ : List Char} {U : List Char}
    (hK : PatOK kwsK replK) (hJ : PatOK kwsJ replJ)
    (hpair : PairOK kwsK replK kwsJ replJ)
    (hU : benignB U = true) (hCU : Canon kwsK replK U) :
    Canon kwsK replK (replJ ++ U) := by
  intro j m hm
  by_cases hj : j < replJ.length
  · have hdrop : (replJ ++ U).drop j = replJ.drop j ++ U :=
      List.drop_append_of_le_length (by omega)
    rw [hdrop] at hm
    have hXsolid : ∀ c ∈ replJ.drop j, pyIsSpace c = false :=
      fun c hc => hJ.repl_solid c (List.mem_of_mem_drop hc)
    have hXlast : (replJ.drop j).getLast? = some '*' := by
      rw [← getLast?_of_drop (drop_ne_nil_of_lt hj)]
      exact hJ.repl_last
    obtain ⟨hm_eq, kw, hkw, hciX⟩ :=
      credMatch_append_benign hK hXsolid hXlast hU hm
    have hcanon := hpair.pair_canon j hj ⟨kw, hkw, hciX⟩
    rw [hdrop, hm_eq, List.take_left, hcanon]
  · have hdrop : (replJ ++ U).drop j = U.drop (j - replJ.length) := by
      have hj' : j = replJ.length + (j - replJ.length) := by omega
      rw [hj', List.drop_append]
      congr 1
      omega
    rw [hdrop] at hm ⊢
    exact hCU (j - replJ.length) m hm

theorem canon_head_nomatch {kwsK : List (List Char)} {replK : List Char}
    {kwsJ : List (List Char)} {replJ : List Char}
    (hK : PatOK kwsK replK) (hJ : PatOK kwsJ replJ)
    (hpair : PairOK kwsK replK kwsJ replJ)
    {t P Q W : List Char} {n' m : Nat}
    (hmode : (kwsK = kwsJ ∧ replK = replJ) ∨ Canon kwsK replK t)
    (hmJ : credMatch kwsJ t = none)
    (hPlen : 1 ≤ P.length)
    (ht : t = P ++ Q)
    (hQ : credMatch kwsJ Q = some n')
    (hW : benignB W = true)
    (hmK : credMatch kwsK (P ++ (replJ ++ W)) = some m) :
    (P ++ (replJ ++ W)).take m = replK := by
  obtain ⟨kw₀, c', r2O, hfO, hdO, hsepO, hvalO, hmEq⟩ := credMatch_shape hmK
  have hkw₀ : kw₀ ∈ kwsK := List.mem_of_find?_eq_some hfO
  have hciO : ciPrefix kw₀ (P ++ (replJ ++ W)) = true := by
    have := List.find?_some hfO
    simpa using this
  rcases lt_trichotomy kw₀.length P.length with hlt | hkeqP | hgt
  · -- the found keyword sits strictly inside the preserved prefix
    have hciP : ciPrefix kw₀ P = true := by
      rw [ciPrefix_append_short (le_of_lt hlt)] at hciO
      exact hciO
    have hciT : ciPrefix kw₀ t = true := by
      rw [ht, ciPrefix_append_short (le_of_lt hlt)]
      exact hciP
    have hfT : kwsK.find? (fun kw => ciPrefix kw t) = some kw₀ := by
      cases hf : kwsK.find? (fun kw => ciPrefix kw t) with
      | none =>
        exact absurd hciT (by simpa using List.find?_eq_none.mp hf kw₀ hkw₀)
      | some kw₁ =>
        have h1 : ciPrefix kw₁ t = true := by
          have := List.find?_some hf
          simpa using this
        have hmem1 : kw₁ ∈ kwsK := List.mem_of_find?_eq_some hf
        rw [hK.unique t kw₁ kw₀ hmem1 hkw₀ h1 hciT]
    cases hPd : P.drop kw₀.length with
    | nil => exact absurd hPd (drop_ne_nil_of_lt hlt)
    | cons p₀ Ptail =>
      have hdOP : (P ++ (replJ ++ W)).drop kw₀.length =
          p₀ :: (Ptail ++ (replJ ++ W)) := by
        rw [List.drop_append_of_le_length (le_of_lt hlt), hPd]
        simp
      have hcp : c' = p₀ := by
        rw [hdOP] at hdO
        exact (List.cons.injEq _ _ _ _ ▸ hdO).1.symm
      have hdT : t.drop kw₀.length = p₀ :: (Ptail ++ Q) := by
        rw [ht, List.drop_append_of_le_length (le_of_lt hlt), hPd]
        simp
      have hQben : benignB Q = false := credMatch_head_nonspace hJ hQ
      cases hQc : Q with
      | nil =>
        rw [hQc] at hQben
        cases hQben
      | cons q₀ Qtail =>
        have hq₀ : pyIsSpace q₀ = false := by
          rw [hQc] at hQben
          simpa [benignB] using hQben
        obtain ⟨m', hm'⟩ := credMatch_isSome hfT hdT (hcp ▸ hsepO)
          ⟨q₀, by rw [hQc]; simp, hq₀⟩
        rcases hmode with ⟨hkeq, hreq⟩ | hCanon
        · rw [hkeq] at hm'
          rw [hmJ] at hm'
          cases hm'
        · have htake := hCanon 0 m' (by simpa using hm')
          simp only [List.drop_zero] at htake
          have hm'pos := credMatch_pos hm'
          have hm'len : m' = replK.length := by
            have hlt2 := congrArg List.length htake
            simp only [List.length_take] at hlt2
            omega
          have hben : benignB (t.drop replK.length) = true := by
            have := credMatch_after hm'
            rwa [hm'len] at this
          have ht2 : t = replK ++ t.drop replK.length := by
            conv_lhs => rw [← List.take_append_drop replK.length t]
            rw [show t.take replK.length = replK from by rw [← hm'len]; exact htake]
          rcases lt_trichotomy P.length replK.length with hPl | hPe | hPg
          · exfalso
            have hQeq : Q = replK.drop P.length ++ t.drop replK.length := by
              have hq1 : t.drop P.length = Q := by
                rw [ht, List.drop_left]
              rw [← hq1]
              conv_lhs => rw [ht2]
              rw [List.drop_append_of_le_length (le_of_lt hPl)]
            rw [hQeq] at hQ
            obtain ⟨_, kwJ, hkwJ, hciJ⟩ := credMatch_append_benign hJ
              (fun c hc => hK.repl_solid c (List.mem_of_mem_drop hc))
              (by rw [← getLast?_of_drop (drop_ne_nil_of_lt hPl)]; exact hK.repl_last)
              hben hQ
            rw [hpair.no_inner P.length hPlen hPl kwJ hkwJ] at hciJ
            cases hciJ
          · exfalso
            have hq1 : Q = t.drop replK.length := by
              rw [← hPe, ht, List.drop_left]
            rw [hq1, credMatch_benign hJ hben] at hQ
            cases hQ
          · have hPtake : P.take replK.length = replK := by
              have h1 : t.take replK.length = replK := by
                rw [← hm'len]
                exact htake
              rw [ht, List.take_append_of_le_length (le_of_lt hPg)] at h1
              exact h1
            have hOtake : (P ++ (replJ ++ W)).take replK.length = replK := by
              rw [List.take_append_of_le_length (le_of_lt hPg), hPtake]
            cases hPdd : P.drop replK.length with
            | nil => exact absurd hPdd (drop_ne_nil_of_lt hPg)
            | cons pd Pdt =>
              have hpd_space : pyIsSpace pd = true := by
                have h2 : t.drop replK.length = pd :: (Pdt ++ Q) := by
                  rw [ht, List.drop_append_of_le_length (le_of_lt hPg), hPdd]
                  simp
                rw [h2] at hben
                simpa [benignB] using hben
              have hOdrop : (P ++ (replJ ++ W)).drop replK.length =
                  pd :: (Pdt ++ (replJ ++ W)) := by
                rw [List.drop_append_of_le_length (le_of_lt hPg), hPdd]
                simp
              have hO2 : P ++ (replJ ++ W) =
                  replK ++ ((P ++ (replJ ++ W)).drop replK.length) := by
                conv_lhs =>
                  rw [← List.take_append_drop replK.length (P ++ (replJ ++ W))]
                rw [hOtake]
              rw [hO2] at hmK
              obtain ⟨hmeq2, -⟩ := credMatch_append_benign hK
                (fun c hc => hK.repl_solid c hc) hK.repl_last
                (by rw [hOdrop]; simpa [benignB] using hpd_space) hmK
              rw [hO2, hmeq2, List.take_left]
  · -- the found keyword ends exactly at the preserved prefix
    exfalso
    have hdropP : (P ++ (replJ ++ W)).drop kw₀.length = replJ ++ W := by
      rw [hkeqP, List.drop_left]
    rw [hdropP] at hdO
    cases hrepl : replJ with
    | nil => exact hJ.repl_ne hrepl
    | cons rh replJ' =>
      rw [hrepl] at hdO
      have hrh : rh = c' := by
        have := congrArg List.head? hdO
        simpa using this
      exact hJ.repl_head_sep rh (by rw [hrepl]; rfl) (hrh ▸ hsepO)
  · -- the found keyword would run past the preserved prefix: impossible
    exfalso
    have hdropped : ciPrefix (kw₀.drop P.length) (replJ ++ W) = true :=
      ciPrefix_drop_of_append hciO (le_of_lt hgt)
    have hbd := (ciPrefix_append_benign
      (fun k hk => hK.kws_chars kw₀ hkw₀ k (List.mem_of_mem_drop hk)) hW).mp
      hdropped
    rw [hpair.no_suffix kw₀ hkw₀ P.length hPlen hgt] at hbd
    cases hbd.2

theorem Canon_nil {kwsK : List (List Char)} {replK : List Char}
    (hK : PatOK kwsK replK) : Canon kwsK replK [] := by
  intro j n hm
  rw [List.drop_nil] at hm
  rw [credMatch_benign hK (show benignB [] = true from rfl)] at hm
  cases hm

theorem subAll_canon {kwsK : List (List Char)} {replK : List Char}
    {kwsJ : List (List Char)} {replJ : List Char}
    (hK : PatOK kwsK replK) (hJ : PatOK kwsJ replJ)
    (hpair : PairOK kwsK replK kwsJ replJ) :
    ∀ (N : Nat) (t : List Char), t.length ≤ N →
      ((kwsK = kwsJ ∧ replK = replJ) ∨ Canon kwsK replK t) →
      Canon kwsK replK (subAll kwsJ replJ t) := by
  intro N
  induction N with
  | zero =>
    intro t ht _
    rw [List.length_eq_zero.mp (Nat.le_zero.mp ht)]
    exact Canon_nil hK
  | succ N ih =>
    intro t ht hmode
    cases t with
    | nil => exact Canon_nil hK
    | cons c rest =>
      cases hm : credMatch kwsJ (c :: rest) with
      | some n =>
        have hp := credMatch_pos hm
        rw [subAll_cons_match hm]
        have hUben : benignB (subAll kwsJ replJ ((c :: rest).drop n)) = true :=
          subAll_benign hJ (credMatch_after hm)
        have hmode' : (kwsK = kwsJ ∧ replK = replJ) ∨
            Canon kwsK replK ((c :: rest).drop n) := by
          rcases hmode with h | h
          · exact Or.inl h
          · exact Or.inr (Canon_drop h)
        have hCU := ih ((c :: rest).drop n)
          (by simp only [List.length_drop, List.length_cons] at ht ⊢; omega)
          hmode'
        exact canon_append_repl hK hJ hpair hUben hCU
      | none =>
        rw [subAll_cons_nomatch hm]
        have hCV := ih rest (by simp only [List.length_cons] at ht; omega)
          (by
            rcases hmode with h | h
            · exact Or.inl h
            · exact Or.inr (by simpa using Canon_drop (k := 1) h))
        intro j mm hmm
        cases j with
        | succ j' =>
          simp only [List.drop_succ_cons] at hmm ⊢
          exact hCV j' mm hmm
        | zero =>
          simp only [List.drop_zero] at hmm ⊢
          rcases subAll_decomp N rest
            (by simp only [List.length_cons] at ht; omega) with
            hVid | ⟨q, n', hq, heqV⟩
          · rw [hVid] at hmm ⊢
            rcases hmode with ⟨hkeq, hreq⟩ | hCanon
            · rw [hkeq, hm] at hmm
              cases hmm
            · have := hCanon 0 mm (by simpa using hmm)
              simpa using this
          · have hshape : c :: subAll kwsJ replJ rest =
                (c :: rest.take q) ++ (replJ ++
                  subAll kwsJ replJ ((rest.drop q).drop n')) := by
              rw [heqV]
              simp
            rw [hshape] at hmm ⊢
            exact canon_head_nomatch hK hJ hpair hmode hm (by simp)
              (by simp) hq
              (subAll_benign hJ (credMatch_after hq)) hmm

theorem ciPrefix_get? {kw s : List Char} (h : ciPrefix kw s = true) :
    ∀ i, i < kw.length → ∃ c k, s.get? i = some c ∧ kw.get? i = some k ∧
      charLower c = charLower k := by
  induction kw generalizing s with
  | nil => intro i hi; simp at hi
  | cons k0 ks ih =>
    intro i hi
    cases s with
    | nil => rw [ciPrefix_nil_right (by simp)] at h; cases h
    | cons c0 cs =>
      simp only [ciPrefix, Bool.and_eq_true, beq_iff_eq] at h
      cases i with
      | zero => exact ⟨c0, k0, rfl, rfl, h.1⟩
      | succ i' =>
        simp only [List.length_cons] at hi
        obtain ⟨c, k, hc, hk, he⟩ := ih h.2 i' (by omega)
        exact ⟨c, k, by simpa using hc, by simpa using hk, he⟩

theorem unique_of_distinct_at (kws : List (List Char)) (i : Nat)
    (hdist : ∀ kw1 ∈ kws, ∀ kw2 ∈ kws, kw1 = kw2 ∨
      ((kw1.get? i).isSome ∧ (kw2.get? i).isSome ∧
        (kw1.get? i).map charLower ≠ (kw2.get? i).map charLower)) :
    ∀ (s kw1 kw2 : List Char), kw1 ∈ kws → kw2 ∈ kws →
      ciPrefix kw1 s = true → ciPrefix kw2 s = true → kw1 = kw2 := by
  intro s kw1 kw2 h1 h2 hc1 hc2
  rcases hdist kw1 h1 kw2 h2 with heq | ⟨hs1, hs2, hne⟩
  · exact heq
  · exfalso
    obtain ⟨k1, hk1⟩ := Option.isSome_iff_exists.mp hs1
    obtain ⟨k2, hk2⟩ := Option.isSome_iff_exists.mp hs2
    have hi1 : i < kw1.length := (List.get?_eq_some.mp hk1).1
    have hi2 : i < kw2.length := (List.get?_eq_some.mp hk2).1
    obtain ⟨c, k, hsc, hkk, he⟩ := ciPrefix_get? hc1 i hi1
    obtain ⟨c2, k', hsc2, hkk2, he2⟩ := ciPrefix_get? hc2 i hi2
    have hkeq : k = k1 := Option.some.inj (hkk.symm.trans hk1)
    have hkeq2 : k' = k2 := Option.some.inj (hkk2.symm.trans hk2)
    have hceq : c = c2 := Option.some.inj (hsc.symm.trans hsc2)
    apply hne
    rw [hk1, hk2]
    show some (charLower k1) = some (charLower k2)
    rw [← hkeq, ← hkeq2, ← he, ← he2, hceq]

theorem repl_head_sep_of (c : Char) {repl : List Char}
    (hc : repl.head? = some c) (hcs : ¬(c = '=' ∨ c = ':')) :
    ∀ h, repl.head? = some h → ¬(h = '=' ∨ h = ':') := by
  intro h hh
  have hce : c = h := Option.some.inj (hc.symm.trans hh)
  rw [← hce]
  exact hcs

theorem canon_of_nomatch {kws : List (List Char)} {repl s : List Char}
    (hK : PatOK kws repl)
    (h : ∀ j < s.length, credMatch kws (s.drop j) = none) :
    Canon kws repl s := by
  intro j n hm
  by_cases hj : j < s.length
  · rw [h j hj] at hm; cases hm
  · rw [List.drop_eq_nil_of_le (by omega)] at hm
    rw [credMatch_benign hK (show benignB [] = true from rfl)] at hm
    cases hm

theorem pairOK_of (kwsK : List (List Char)) (replK : List Char)
    (kwsJ : List (List Char)) (replJ : List Char)
    (h1 : ∀ o < replJ.length,
      (∃ kw ∈ kwsK, ciPrefix kw (replJ.drop o) = true) → replJ.drop o = replK)
    (h2 : ∀ o < replK.length, 1 ≤ o → ∀ kw ∈ kwsJ,
      ciPrefix kw (replK.drop o) = false)
    (h3 : ∀ kw ∈ kwsK, ∀ o < kw.length, 1 ≤ o →
      ciPrefix (kw.drop o) replJ = false) :
    PairOK kwsK replK kwsJ replJ :=
  ⟨h1, fun o ho1 ho2 => h2 o ho2 ho1, fun kw hkw o ho1 ho2 => h3 kw hkw o ho2 ho1⟩

theorem patOK_pw : PatOK pwKws pwRepl := by
  refine ⟨by decide, by decide, by decide, by decide, by decide,
    repl_head_sep_of 'p' (by decide) (by decide),
    unique_of_distinct_at _ 0 (by decide)⟩

theorem patOK_tok : PatOK tokKws tokRepl := by
  refine ⟨by decide, by decide, by decide, by decide, by decide,
    repl_head_sep_of 't' (by decide) (by decide),
    unique_of_distinct_at _ 0 (by decide)⟩

theorem patOK_key : PatOK keyKws keyRepl := by
  refine ⟨by decide, by decide, by decide, by decide, by decide,
    repl_head_sep_of 'k' (by decide) (by decide),
    unique_of_distinct_at _ 0 (by decide)⟩

theorem patOK_sec : PatOK secKws secRepl := by
  refine ⟨by decide, by decide, by decide, by decide, by decide,
    repl_head_sep_of 's' (by decide) (by decide),
    unique_of_distinct_at _ 0 (by decide)⟩

theorem patOK_api : PatOK apiKws apiRepl := by
  refine ⟨by decide, by decide, by decide, by decide, by decide,
    repl_head_sep_of 'a' (by decide) (by decide),
    unique_of_distinct_at _ 3 (by decide)⟩

theorem patOK_auth : PatOK authKws authRepl := by
  refine ⟨by decide, by decide, by decide, by decide, by decide,
    repl_head_sep_of 'a' (by decide) (by decide),
    unique_of_distinct_at _ 4 (by decide)⟩

theorem pairOK_pw_pw : PairOK pwKws pwRepl pwKws pwRepl :=
  pairOK_of _ _ _ _ (by decide) (by decide) (by decide)

theorem pairOK_pw_tok : PairOK pwKws pwRepl tokKws tokRepl :=
  pairOK_of _ _ _ _ (by decide) (by decide) (by decide)

theorem pairOK_pw_key : PairOK pwKws pwRepl keyKws keyRepl :=
  pairOK_of _ _ _ _ (by decide) (by decide) (by decide)

theorem pairOK_pw_sec : PairOK pwKws pwRepl secKws secRepl :=
  pairOK_of _ _ _ _ (by decide) (by decide) (by decide)

theorem pairOK_pw_api : PairOK pwKws pwRepl apiKws apiRepl :=
  pairOK_of _ _ _ _ (by decide) (by decide) (by decide)

theorem pairOK_pw_auth : PairOK pwKws pwRepl authKws authRepl :=
  pairOK_of _ _ _ _ (by decide) (by decide) (by decide)

theorem pairOK_tok_tok : PairOK tokKws tokRepl tokKws tokRepl :=
  pairOK_of _ _ _ _ (by decide) (by decide) (by decide)

theorem pairOK_tok_key : PairOK tokKws tokRepl keyKws keyRepl :=
  pairOK_of _ _ _ _ (by decide) (by decide) (by decide)

theorem pairOK_tok_sec : PairOK tokKws tokRepl secKws secRepl :=
  pairOK_of _ _ _ _ (by decide) (by decide) (by decide)

theorem pairOK_tok_api : PairOK tokKws tokRepl apiKws apiRepl :=
  pairOK_of _ _ _ _ (by decide) (by decide) (by decide)

theorem pairOK_tok_auth : PairOK tokKws tokRepl authKws authRepl :=
  pairOK_of _ _ _ _ (by decide) (by decide) (by decide)

theorem pairOK_key_key : PairOK keyKws keyRepl keyKws keyRepl :=
  pairOK_of _ _ _ _ (by decide) (by decide) (by decide)

theorem pairOK_key_sec : PairOK keyKws keyRepl secKws secRepl :=
  pairOK_of _ _ _ _ (by decide) (by decide) (by decide)

theorem pairOK_key_api : PairOK keyKws keyRepl apiKws apiRepl :=
  pairOK_of _ _ _ _ (by decide) (by decide) (by decide)

theorem pairOK_key_auth : PairOK keyKws keyRepl authKws authRepl :=
  pairOK_of _ _ _ _ (by decide) (by decide) (by decide)

theorem pairOK_sec_sec : PairOK secKws secRepl secKws secRepl :=
  pairOK_of _ _ _ _ (by decide) (by decide) (by decide)

theorem pairOK_sec_api : PairOK secKws secRepl apiKws apiRepl :=
  pairOK_of _ _ _ _ (by decide) (by decide) (by decide)

theorem pairOK_sec_auth : PairOK secKws secRepl authKws authRepl :=
  pairOK_of _ _ _ _ (by decide) (by decide) (by decide)

theorem pairOK_api_api : PairOK apiKws apiRepl apiKws apiRepl :=
  pairOK_of _ _ _ _ (by decide) (by decide) (by decide)

theorem pairOK_api_auth : PairOK apiKws apiRepl authKws authRepl :=
  pairOK_of _ _ _ _ (by decide) (by decide) (by decide)

theorem pairOK_auth_auth : PairOK authKws authRepl authKws authRepl :=
  pairOK_of _ _ _ _ (by decide) (by decide) (by decide)

theorem sanitize_eq (s : List Char) :
    sanitize_command_output s = (subAll authKws authRepl (subAll apiKws apiRepl (subAll secKws secRepl (subAll keyKws keyRepl (subAll tokKws tokRepl (subAll pwKws pwRepl s)))))) := rfl

theorem sanitize_canon (s : List Char) :
    Canon pwKws pwRepl (sanitize_command_output s) ∧
    Canon tokKws tokRepl (sanitize_command_output s) ∧
    Canon keyKws keyRepl (sanitize_command_output s) ∧
    Canon secKws secRepl (sanitize_command_output s) ∧
    Canon apiKws apiRepl (sanitize_command_output s) ∧
    Canon authKws authRepl (sanitize_command_output s) := by
  rw [sanitize_eq]
  have hpw1 : Canon pwKws pwRepl (subAll pwKws pwRepl s) :=
    subAll_canon patOK_pw patOK_pw pairOK_pw_pw s.length
      s le_rfl (Or.inl ⟨rfl, rfl⟩)
  have hpw2 : Canon pwKws pwRepl (subAll tokKws tokRepl (subAll pwKws pwRepl s)) :=
    subAll_canon patOK_pw patOK_tok pairOK_pw_tok (subAll pwKws pwRepl s).length
      (subAll pwKws pwRepl s) le_rfl (Or.inr hpw1)
  have hpw3 : Canon pwKws pwRepl (subAll keyKws keyRepl (subAll tokKws tokRepl (subAll pwKws pwRepl s))) :=
    subAll_canon patOK_pw patOK_key pairOK_pw_key (subAll tokKws tokRepl (subAll pwKws pwRepl s)).length
      (subAll tokKws tokRepl (subAll pwKws pwRepl s)) le_rfl (Or.inr hpw2)
  have hpw4 : Canon pwKws pwRepl (subAll secKws secRepl (subAll keyKws keyRepl (subAll tokKws tokRepl (subAll pwKws pwRepl s)))) :=
    subAll_canon patOK_pw patOK_sec pairOK_pw_sec (subAll keyKws keyRepl (subAll tokKws tokRepl (subAll pwKws pwRepl s))).length
      (subAll keyKws keyRepl (subAll tokKws tokRepl (subAll pwKws pwRepl s))) le_rfl (Or.inr hpw3)
  have hpw5 : Canon pwKws pwRepl (subAll apiKws apiRepl (subAll secKws secRepl (subAll keyKws keyRepl (subAll tokKws tokRepl (subAll pwKws pwRepl s))))) :=
    subAll_canon patOK_pw patOK_api pairOK_pw_api (subAll secKws secRepl (subAll keyKws keyRepl (subAll tokKws tokRepl (subAll pwKws pwRepl s)))).length
      (subAll secKws secRepl (subAll keyKws keyRepl (subAll tokKws tokRepl (subAll pwKws pwRepl s)))) le_rfl (Or.inr hpw4)
  have hpw6 : Canon pwKws pwRepl (subAll authKws authRepl (subAll apiKws apiRepl (subAll secKws secRepl (subAll keyKws keyRepl (subAll tokKws tokRepl (subAll pwKws pwRepl s)))))) :=
    subAll_canon patOK_pw patOK_auth pairOK_pw_auth (subAll apiKws apiRepl (subAll secKws secRepl (subAll keyKws keyRepl (subAll tokKws tokRepl (subAll pwKws pwRepl s))))).length
      (subAll apiKws apiRepl (subAll secKws secRepl (subAll keyKws keyRepl (subAll tokKws tokRepl (subAll pwKws pwRepl s))))) le_rfl (Or.inr hpw5)
  have htok2 : Canon tokKws tokRepl (subAll tokKws tokRepl (subAll pwKws pwRepl s)) :=
    subAll_canon patOK_tok patOK_tok pairOK_tok_tok (subAll pwKws pwRepl s).length
      (subAll pwKws pwRepl s) le_rfl (Or.inl ⟨rfl, rfl⟩)
  have htok3 : Canon tokKws tokRepl (subAll keyKws keyRepl (subAll tokKws tokRepl (subAll pwKws pwRepl s))) :=
    subAll_canon patOK_tok patOK_key pairOK_tok_key (subAll tokKws tokRepl (subAll pwKws pwRepl s)).length
      (subAll tokKws tokRepl (subAll pwKws pwRepl s)) le_rfl (Or.inr htok2)
  have htok4 : Canon tokKws tokRepl (subAll secKws secRepl (subAll keyKws keyRepl (subAll tokKws tokRepl (subAll pwKws pwRepl s)))) :=
    subAll_canon patOK_tok patOK_sec pairOK_tok_sec (subAll keyKws keyRepl (subAll tokKws tokRepl (subAll pwKws pwRepl s))).length
      (subAll keyKws keyRepl (subAll tokKws tokRepl (subAll pwKws pwRepl s))) le_rfl (Or.inr htok3)
  have htok5 : Canon tokKws tokRepl (subAll apiKws apiRepl (subAll secKws secRepl (subAll keyKws keyRepl (subAll tokKws tokRepl (subAll pwKws pwRepl s))))) :=
    subAll_canon patOK_tok patOK_api pairOK_tok_api (subAll secKws secRepl (subAll keyKws keyRepl (subAll tokKws tokRepl (subAll pwKws pwRepl s)))).length
      (subAll secKws secRepl (subAll keyKws keyRepl (subAll tokKws tokRepl (subAll pwKws pwRepl s)))) le_rfl (Or.inr htok4)
  have htok6 : Canon tokKws tokRepl (subAll authKws authRepl (subAll apiKws apiRepl (subAll secKws secRepl (subAll keyKws keyRepl (subAll tokKws tokRepl (subAll pwKws pwRepl s)))))) :=
    subAll_canon patOK_tok patOK_auth pairOK_tok_auth (subAll apiKws apiRepl (subAll secKws secRepl (subAll keyKws keyRepl (subAll tokKws tokRepl (subAll pwKws pwRepl s))))).length
      (subAll apiKws apiRepl (subAll secKws secRepl (subAll keyKws keyRepl (subAll tokKws tokRepl (subAll pwKws pwRepl s))))) le_rfl (Or.inr htok5)
  have hkey3 : Canon keyKws keyRepl (subAll keyKws keyRepl (subAll tokKws tokRepl (subAll pwKws pwRepl s))) :=
    subAll_canon patOK_key patOK_key pairOK_key_key (subAll tokKws tokRepl (subAll pwKws pwRepl s)).length
      (subAll tokKws tokRepl (subAll pwKws pwRepl s)) le_rfl (Or.inl ⟨rfl, rfl⟩)
  have hkey4 : Canon keyKws keyRepl (subAll secKws secRepl (subAll keyKws keyRepl (subAll tokKws tokRepl (subAll pwKws pwRepl s)))) :=
    subAll_canon patOK_key patOK_sec pairOK_key_sec (subAll keyKws keyRepl (subAll tokKws tokRepl (subAll pwKws pwRepl s))).length
      (subAll keyKws keyRepl (subAll tokKws tokRepl (subAll pwKws pwRepl s))) le_rfl (Or.inr hkey3)
  have hkey5 : Canon keyKws keyRepl (subAll apiKws apiRepl (subAll secKws secRepl (subAll keyKws keyRepl (subAll tokKws tokRepl (subAll pwKws pwRepl s))))) :=
    subAll_canon patOK_key patOK_api pairOK_key_api (subAll secKws secRepl (subAll keyKws keyRepl (subAll tokKws tokRepl (subAll pwKws pwRepl s)))).length
      (subAll secKws secRepl (subAll keyKws keyRepl (subAll tokKws tokRepl (subAll pwKws pwRepl s)))) le_rfl (Or.inr hkey4)
  have hkey6 : Canon keyKws keyRepl (subAll authKws authRepl (subAll apiKws apiRepl (subAll secKws secRepl (subAll keyKws keyRepl (subAll tokKws tokRepl (subAll pwKws pwRepl s)))))) :=
    subAll_canon patOK_key patOK_auth pairOK_key_auth (subAll apiKws apiRepl (subAll secKws secRepl (subAll keyKws keyRepl (subAll tokKws tokRepl (subAll pwKws pwRepl s))))).length
      (subAll apiKws apiRepl (subAll secKws secRepl (subAll keyKws keyRepl (subAll tokKws tokRepl (subAll pwKws pwRepl s))))) le_rfl (Or.inr hkey5)
  have hsec4 : Canon secKws secRepl (subAll secKws secRepl (subAll keyKws keyRepl (subAll tokKws tokRepl (subAll pwKws pwRepl s)))) :=
    subAll_canon patOK_sec patOK_sec pairOK_sec_sec (subAll keyKws keyRepl (subAll tokKws tokRepl (subAll pwKws pwRepl s))).length
      (subAll keyKws keyRepl (subAll tokKws tokRepl (subAll pwKws pwRepl s))) le_rfl (Or.inl ⟨rfl, rfl⟩)
  have hsec5 : Canon secKws secRepl (subAll apiKws apiRepl (subAll secKws secRepl (subAll keyKws keyRepl (subAll tokKws tokRepl (subAll pwKws pwRepl s))))) :=
    subAll_canon patOK_sec patOK_api pairOK_sec_api (subAll secKws secRepl (subAll keyKws keyRepl (subAll tokKws tokRepl (subAll pwKws pwRepl s)))).length
      (subAll secKws secRepl (subAll keyKws keyRepl (subAll tokKws tokRepl (subAll pwKws pwRepl s)))) le_rfl (Or.inr hsec4)
  have hsec6 : Canon secKws secRepl (subAll authKws authRepl (subAll apiKws apiRepl (subAll secKws secRepl (subAll keyKws keyRepl (subAll tokKws tokRepl (subAll pwKws pwRepl s)))))) :=
    subAll_canon patOK_sec patOK_auth pairOK_sec_auth (subAll apiKws apiRepl (subAll secKws secRepl (subAll keyKws keyRepl (subAll tokKws tokRepl (subAll pwKws pwRepl s))))).length
      (subAll apiKws apiRepl (subAll secKws secRepl (subAll keyKws keyRepl (subAll tokKws tokRepl (subAll pwKws pwRepl s))))) le_rfl (Or.inr hsec5)
  have hapi5 : Canon apiKws apiRepl (subAll apiKws apiRepl (subAll secKws secRepl (subAll keyKws keyRepl (subAll tokKws tokRepl (subAll pwKws pwRepl s))))) :=
    subAll_canon patOK_api patOK_api pairOK_api_api (subAll secKws secRepl (subAll keyKws keyRepl (subAll tokKws tokRepl (subAll pwKws pwRepl s)))).length
      (subAll secKws secRepl (subAll keyKws keyRepl (subAll tokKws tokRepl (subAll pwKws pwRepl s)))) le_rfl (Or.inl ⟨rfl, rfl⟩)
  have hapi6 : Canon apiKws apiRepl (subAll authKws authRepl (subAll apiKws apiRepl (subAll secKws secRepl (subAll keyKws keyRepl (subAll tokKws tokRepl (subAll pwKws pwRepl s)))))) :=
    subAll_canon patOK_api patOK_auth pairOK_api_auth (subAll apiKws apiRepl (subAll secKws secRepl (subAll keyKws keyRepl (subAll tokKws tokRepl (subAll pwKws pwRepl s))))).length
      (subAll apiKws apiRepl (subAll secKws secRepl (subAll keyKws keyRepl (subAll tokKws tokRepl (subAll pwKws pwRepl s))))) le_rfl (Or.inr hapi5)
  have hauth6 : Canon authKws authRepl (subAll authKws authRepl (subAll apiKws apiRepl (subAll secKws secRepl (subAll keyKws keyRepl (subAll tokKws tokRepl (subAll pwKws pwRepl s)))))) :=
    subAll_canon patOK_auth patOK_auth pairOK_auth_auth (subAll apiKws apiRepl (subAll secKws secRepl (subAll keyKws keyRepl (subAll tokKws tokRepl (subAll pwKws pwRepl s))))).length
      (subAll apiKws apiRepl (subAll secKws secRepl (subAll keyKws keyRepl (subAll tokKws tokRepl (subAll pwKws pwRepl s))))) le_rfl (Or.inl ⟨rfl, rfl⟩)
  exact ⟨hpw6, htok6, hkey6, hsec6, hapi6, hauth6⟩

/-- C8: `sanitize_command_output` is idempotent - applying the six redaction
passes a second time changes nothing; an output in which no credential
pattern matches at any position is returned unchanged; and a
credential-shaped substring has its value replaced by the fixed placeholder
(`"password: hunter2"` becomes `"password=***"`). -/
theorem c8_sanitize_idempotent :
    (∀ s : List Char,
      sanitize_command_output (sanitize_command_output s) =
        sanitize_command_output s) ∧
    (∀ s : List Char,
      (∀ p ∈ credPatterns, ∀ j < s.length, credMatch p.1 (s.drop j) = none) →
      sanitize_command_output s = s) ∧
    sanitize_command_output "password: hunter2 ok".data =
      "password=*** ok".data := by
  refine ⟨?_, ?_, by decide⟩
  · intro s
    obtain ⟨h1, h2, h3, h4, h5, h6⟩ := sanitize_canon s
    rw [sanitize_eq (sanitize_command_output s),
      subAll_id patOK_pw _ _ le_rfl h1,
      subAll_id patOK_tok _ _ le_rfl h2,
      subAll_id patOK_key _ _ le_rfl h3,
      subAll_id patOK_sec _ _ le_rfl h4,
      subAll_id patOK_api _ _ le_rfl h5,
      subAll_id patOK_auth _ _ le_rfl h6]
  · intro s hnm
    have hpw : Canon pwKws pwRepl s :=
      canon_of_nomatch patOK_pw (fun j hj => hnm (pwKws, pwRepl) (by decide) j hj)
    have htok : Canon tokKws tokRepl s :=
      canon_of_nomatch patOK_tok (fun j hj => hnm (tokKws, tokRepl) (by decide) j hj)
    have hkey : Canon keyKws keyRepl s :=
      canon_of_nomatch patOK_key (fun j hj => hnm (keyKws, keyRepl) (by decide) j hj)
    have hsec : Canon secKws secRepl s :=
      canon_of_nomatch patOK_sec (fun j hj => hnm (secKws, secRepl) (by decide) j hj)
    have hapi : Canon apiKws apiRepl s :=
      canon_of_nomatch patOK_api (fun j hj => hnm (apiKws, apiRepl) (by decide) j hj)
    have hauth : Canon authKws authRepl s :=
      canon_of_nomatch patOK_auth (fun j hj => hnm (authKws, authRepl) (by decide) j hj)
    rw [sanitize_eq s,
      subAll_id patOK_pw _ _ le_rfl hpw,
      subAll_id patOK_tok _ _ le_rfl htok,
      subAll_id patOK_key _ _ le_rfl hkey,
      subAll_id patOK_sec _ _ le_rfl hsec,
      subAll_id patOK_api _ _ le_rfl hapi,
      subAll_id patOK_auth _ _ le_rfl hauth]

theorem c8_sanitize_idempotent_witness :
    sanitize_command_output "hello world".data = "hello world".data :=
  c8_sanitize_idempotent.2.1 "hello world".data (by decide)
